import Mathlib

/-!
Verification development for the `openmmwrap` repository.

The development shallowly embeds the two self-contained pieces of logic in
the repository and proves properties about them:

* `openmmwrap/io/_util.py` — `recursive_merge` (left-biased deep merge of
  nested dictionaries), embedded both at value level (`recursive_merge`)
  and, for ownership/aliasing questions, over an explicit object heap
  (`mergeH`).
* `openmmwrap/io/configio.py` — the plotting-configuration normalizer
  (`_get_config_lineplots` and the per-section denylist filters) and
  `load_config_plot`.
* `openmmwrap/md/frameselection.py` — `find_frame` and its helper
  `_get_frame_closest_to_average`, embedded with explicit state passing so
  that the helper's in-place addition of a `diff` column to the caller's
  data frame, and the pandas object semantics of the `second_half` slice
  (a separate frame object whose column set is fixed when the slice is
  taken), are both visible.

Python dictionaries are modelled as insertion-ordered association lists
with distinct keys; pandas data frames as lists of labelled rows with
rational-valued cells (the claims under study only involve exactly
representable values, so `ℚ` is a faithful carrier for them).
-/

namespace Openmmwrap

/-- Python values as they occur in the configuration trees handled by
`recursive_merge` and the configuration normalizer: scalars (numbers and
strings), lists, and nested string-keyed dictionaries.  Dictionaries are
insertion-ordered association lists, mirroring Python dict iteration
order.  Every non-dictionary value is opaque to the merge logic, so these
constructors cover the behaviours of all YAML-derived values. -/
inductive Val where
  | int : Int → Val
  | str : String → Val
  | dict : List (String × Val) → Val
  | list : List Val → Val

/-- Assignment `d[k] = v` on a Python dict: replace the value at the first
occurrence of `k`, keeping its position, or append `(k, v)` at the end if
`k` is absent. -/
def setEntry {β : Type} : List (String × β) → String → β → List (String × β)
  | [], k, v => [(k, v)]
  | (k1, v1) :: rest, k, v =>
      if k1 = k then (k, v) :: rest else (k1, v1) :: setEntry rest k v

/-- The keys of an association list are pairwise distinct (always true of
a list obtained from a Python dict). -/
def keysNodup {β : Type} (m : List (String × β)) : Prop :=
  (m.map Prod.fst).Nodup

instance {β : Type} (m : List (String × β)) : Decidable (keysNodup m) := by
  unfold keysNodup
  infer_instance

/-- Worker for `recursive_merge` from `openmmwrap/io/_util.py`.  The
Python function initializes `merged` to a copy of `d2` and then walks the
items of `d1` in order: when the values on both sides of a shared key are
dictionaries it recurses, otherwise the value from `d1` wins; keys absent
from `d2` are appended.  `rmAux d1 d2 acc` is that loop with `acc` the
`merged` accumulator (initially `d2`). -/
def rmAux : List (String × Val) → List (String × Val) → List (String × Val) →
    List (String × Val)
  | [], _, acc => acc
  | (k, Val.dict m1) :: rest, d2, acc =>
      (match List.lookup k d2 with
       | some (Val.dict m2) =>
           rmAux rest d2 (setEntry acc k (Val.dict (rmAux m1 m2 m2)))
       | _ => rmAux rest d2 (setEntry acc k (Val.dict m1)))
  | (k, v) :: rest, d2, acc => rmAux rest d2 (setEntry acc k v)
termination_by d1 _ _ => sizeOf d1
decreasing_by
  all_goals simp_wf
  all_goals omega

/-- `recursive_merge` from `openmmwrap/io/_util.py`: left-biased deep
merge of two nested dictionaries (`d1` takes precedence). -/
def recursive_merge (d1 d2 : List (String × Val)) : List (String × Val) :=
  rmAux d1 d2 d2

/-- Looking up the key just assigned by `setEntry` yields the new value. -/
theorem lookup_setEntry_self {β : Type} (m : List (String × β)) (k : String) (v : β) :
    List.lookup k (setEntry m k v) = some v := by
  induction m with
  | nil => simp [setEntry, List.lookup]
  | cons p rest ih =>
      obtain ⟨k1, v1⟩ := p
      by_cases h : k1 = k
      · subst h
        simp [setEntry, List.lookup]
      · have hb : (k == k1) = false := beq_eq_false_iff_ne.mpr (fun hh => h hh.symm)
        simp [setEntry, h, List.lookup, hb, ih]

/-- `setEntry` leaves lookups of other keys unchanged. -/
theorem lookup_setEntry_ne {β : Type} (m : List (String × β)) (k k1 : String) (v : β)
    (h : k ≠ k1) :
    List.lookup k1 (setEntry m k v) = List.lookup k1 m := by
  have hb : (k1 == k) = false := beq_eq_false_iff_ne.mpr (fun hh => h hh.symm)
  induction m with
  | nil => simp [setEntry, List.lookup, hb]
  | cons p rest ih =>
      obtain ⟨k0, v0⟩ := p
      by_cases h0 : k0 = k
      · subst h0
        simp [setEntry, List.lookup, hb]
      · simp [setEntry, h0, List.lookup, ih]

/-- The value that one iteration of the `recursive_merge` loop stores for a
key of `d1`, as a function of the value in `d1` and the value (if any) at
the same key in `d2`. -/
def rmVal (v : Val) (o : Option Val) : Val :=
  match v, o with
  | Val.dict m1, some (Val.dict m2) => Val.dict (recursive_merge m1 m2)
  | v, _ => v

/-- One step of the `recursive_merge` loop, written with `rmVal`. -/
theorem rmAux_cons (k0 : String) (v0 : Val) (rest d2 acc : List (String × Val)) :
    rmAux ((k0, v0) :: rest) d2 acc =
      rmAux rest d2 (setEntry acc k0 (rmVal v0 (List.lookup k0 d2))) := by
  cases v0 with
  | dict m1 =>
      cases hl : List.lookup k0 d2 with
      | none => simp [rmAux, rmVal, hl]
      | some w => cases w <;> simp [rmAux, rmVal, hl, recursive_merge]
  | int n => simp [rmAux, rmVal]
  | str s => simp [rmAux, rmVal]
  | list l => simp [rmAux, rmVal]

/-- Keys not occurring in `d1` are untouched by the merge loop. -/
theorem rmAux_lookup_notin (d1 : List (String × Val)) (d2 : List (String × Val)) :
    ∀ (acc : List (String × Val)) (k : String), k ∉ d1.map Prod.fst →
      List.lookup k (rmAux d1 d2 acc) = List.lookup k acc := by
  induction d1 with
  | nil =>
      intro acc k _
      simp [rmAux]
  | cons p rest ih =>
      intro acc k hk
      obtain ⟨k0, v0⟩ := p
      simp only [List.map_cons, List.mem_cons, not_or] at hk
      rw [rmAux_cons, ih _ _ hk.2, lookup_setEntry_ne _ _ _ _ (fun h => hk.1 h.symm)]

/-- A key of `d1` ends up bound to `rmVal` of its two values. -/
theorem rmAux_lookup_mem (d1 : List (String × Val)) (d2 : List (String × Val)) :
    ∀ (acc : List (String × Val)) (k : String) (v : Val), keysNodup d1 → (k, v) ∈ d1 →
      List.lookup k (rmAux d1 d2 acc) = some (rmVal v (List.lookup k d2)) := by
  induction d1 with
  | nil =>
      intro acc k v _ hmem
      simp at hmem
  | cons p rest ih =>
      intro acc k v hnd hmem
      obtain ⟨k0, v0⟩ := p
      simp only [keysNodup, List.map_cons, List.nodup_cons] at hnd
      rw [rmAux_cons]
      rcases List.mem_cons.mp hmem with heq | hrest
      · have hk : k = k0 := congrArg Prod.fst heq
        subst hk
        have hv : v = v0 := congrArg Prod.snd heq
        subst hv
        rw [rmAux_lookup_notin _ _ _ _ hnd.1, lookup_setEntry_self]
      · exact ih _ _ _ hnd.2 hrest

/-- `List.lookup` only returns values paired with the key. -/
theorem lookup_mem {β : Type} (m : List (String × β)) (k : String) (v : β)
    (h : List.lookup k m = some v) : (k, v) ∈ m := by
  induction m with
  | nil => simp [List.lookup] at h
  | cons p rest ih =>
      obtain ⟨k0, v0⟩ := p
      by_cases hk : k0 = k
      · subst hk
        simp [List.lookup] at h
        simp [h]
      · have hb : (k == k0) = false := beq_eq_false_iff_ne.mpr (fun hh => hk hh.symm)
        simp [List.lookup, hb] at h
        exact List.mem_cons_of_mem _ (ih h)

example :
    recursive_merge [] [("a", Val.int 1)] = [("a", Val.int 1)] := by
  simp [recursive_merge, rmAux]

example :
    recursive_merge [("a", Val.int 1)] [] = [("a", Val.int 1)] := by
  simp [recursive_merge, rmAux, setEntry]

example :
    recursive_merge [("a", Val.dict [("x", Val.int 1)])]
      [("a", Val.dict [("x", Val.int 2), ("y", Val.int 3)])] =
    [("a", Val.dict [("x", Val.int 1), ("y", Val.int 3)])] := by
  simp [recursive_merge, rmAux, setEntry, List.lookup]

example :
    recursive_merge [("a", Val.int 5)] [("a", Val.dict [("x", Val.int 1)])] =
    [("a", Val.int 5)] := by
  simp [recursive_merge, rmAux, setEntry, List.lookup]

/-- C3: `recursive_merge` keeps secondary-only keys at the secondary
value, merges shared dictionary-valued keys recursively with primary
precedence, lets the primary value fully replace the secondary one for
every other shared key (even across shapes), and satisfies the four
concrete examples from the specification. -/
theorem claim_C3_merge_semantics :
    (∀ (d1 d2 : List (String × Val)) (k : String), k ∉ d1.map Prod.fst →
        List.lookup k (recursive_merge d1 d2) = List.lookup k d2) ∧
    (∀ (d1 d2 m1 m2 : List (String × Val)) (k : String), keysNodup d1 →
        List.lookup k d1 = some (Val.dict m1) →
        List.lookup k d2 = some (Val.dict m2) →
        List.lookup k (recursive_merge d1 d2) =
          some (Val.dict (recursive_merge m1 m2))) ∧
    (∀ (d1 d2 : List (String × Val)) (k : String) (v : Val), keysNodup d1 →
        List.lookup k d1 = some v →
        (∀ m1, v = Val.dict m1 → ∀ m2, List.lookup k d2 ≠ some (Val.dict m2)) →
        List.lookup k (recursive_merge d1 d2) = some v) ∧
    recursive_merge [] [("a", Val.int 1)] = [("a", Val.int 1)] ∧
    recursive_merge [("a", Val.int 1)] [] = [("a", Val.int 1)] ∧
    recursive_merge [("a", Val.dict [("x", Val.int 1)])]
      [("a", Val.dict [("x", Val.int 2), ("y", Val.int 3)])] =
      [("a", Val.dict [("x", Val.int 1), ("y", Val.int 3)])] ∧
    recursive_merge [("a", Val.int 5)] [("a", Val.dict [("x", Val.int 1)])] =
      [("a", Val.int 5)] := by
  refine ⟨?_, ?_, ?_, ?_, ?_, ?_, ?_⟩
  · intro d1 d2 k hk
    exact rmAux_lookup_notin d1 d2 d2 k hk
  · intro d1 d2 m1 m2 k hnd h1 h2
    have := rmAux_lookup_mem d1 d2 d2 k (Val.dict m1) hnd (lookup_mem _ _ _ h1)
    rw [recursive_merge, this, h2, rmVal]
  · intro d1 d2 k v hnd h1 hshape
    have := rmAux_lookup_mem d1 d2 d2 k v hnd (lookup_mem _ _ _ h1)
    rw [recursive_merge, this]
    cases v with
    | dict m1 =>
        cases h2 : List.lookup k d2 with
        | none => rfl
        | some w =>
            cases w with
            | dict m2 => exact absurd h2 (hshape m1 rfl m2)
            | int n => rfl
            | str st => rfl
            | list l => rfl
    | int n => rfl
    | str st => rfl
    | list l => rfl
  · simp [recursive_merge, rmAux]
  · simp [recursive_merge, rmAux, setEntry]
  · simp [recursive_merge, rmAux, setEntry, List.lookup]
  · simp [recursive_merge, rmAux, setEntry, List.lookup]

/-- Witness for C3: the three universally quantified parts applied at
concrete inputs, with every hypothesis discharged there. -/
theorem claim_C3_merge_semantics_witness :
    List.lookup ("b") (recursive_merge [("a", Val.int 1)]
        [("b", Val.int 7)]) = some (Val.int 7) ∧
    List.lookup ("a") (recursive_merge [("a", Val.dict [("x", Val.int 1)])]
        [("a", Val.dict [("y", Val.int 3)])]) =
      some (Val.dict (recursive_merge [("x", Val.int 1)] [("y", Val.int 3)])) ∧
    List.lookup ("a") (recursive_merge [("a", Val.int 5)]
        [("a", Val.dict [("x", Val.int 1)])]) = some (Val.int 5) :=
  ⟨claim_C3_merge_semantics.1 _ _ _ (by simp),
   claim_C3_merge_semantics.2.1 [("a", Val.dict [("x", Val.int 1)])]
     [("a", Val.dict [("y", Val.int 3)])] [("x", Val.int 1)] [("y", Val.int 3)]
     ("a") (by simp [keysNodup]) (by simp [List.lookup]) (by simp [List.lookup]),
   claim_C3_merge_semantics.2.2.1 [("a", Val.int 5)]
     [("a", Val.dict [("x", Val.int 1)])] ("a") (Val.int 5)
     (by simp [keysNodup]) (by simp [List.lookup])
     (by intro m1 hm; cases hm)⟩

/-- Denylist of `_get_config_output_section` in `openmmwrap/io/configio.py`. -/
def OPTIONS_IGNORED_OUTPUT : List String :=
  ["fname", "format", "bbox_extra_artists", "pil_kwargs"]

/-- Denylist of `_get_config_title_section`. -/
def OPTIONS_IGNORED_TITLE : List String :=
  ["clip_box", "clip_path", "figure", "path_effects", "text", "transform"]

/-- Denylist used by `_get_config_axis_section` for the `label` block. -/
def OPTIONS_IGNORED_LABEL : List String :=
  ["clip_box", "clip_path", "figure", "label", "path_effects", "text", "transform"]

/-- Denylist used by `_get_config_axis_section` for the `ticklabels` block. -/
def OPTIONS_IGNORED_TICKLABELS : List String :=
  ["labels", "clip_box", "clip_path", "figure", "label", "path_effects", "text",
   "transform"]

/-- Denylist of `_get_config_lineplot_section`. -/
def OPTIONS_IGNORED_LINEPLOT : List String :=
  ["x", "y", "data", "agg_filter", "clip_box", "clip_path", "figure", "label",
   "path_effects", "picker", "transform", "xdata", "ydata"]

/-- The dict comprehension used by the section loaders: keep the items
whose key is not in the denylist, preserving order. -/
def filterKeys (m : List (String × Val)) (ignored : List String) :
    List (String × Val) :=
  m.filter (fun p => !(ignored.contains p.1))

/-- `_get_config_output_section` from `openmmwrap/io/configio.py`. -/
def get_config_output_section (c : List (String × Val)) : List (String × Val) :=
  filterKeys c OPTIONS_IGNORED_OUTPUT

/-- `_get_config_title_section` from `openmmwrap/io/configio.py`. -/
def get_config_title_section (c : List (String × Val)) : List (String × Val) :=
  filterKeys c OPTIONS_IGNORED_TITLE

/-- `_get_config_lineplot_section` from `openmmwrap/io/configio.py`. -/
def get_config_lineplot_section (c : List (String × Val)) : List (String × Val) :=
  filterKeys c OPTIONS_IGNORED_LINEPLOT

/-- Errors raised by the configuration normalizer and by
`load_config_plot`: the two `raise ValueError` sites for a missing or
unsupported plot type, a `KeyError` for a missing mandatory key, an
`AttributeError` for `.items()` applied to a non-mapping section value,
and a `TypeError` for a membership test or item assignment on a
non-mapping value. -/
inductive CfgErr where
  | valueError : CfgErr
  | keyError : String → CfgErr
  | typeError : CfgErr
  | attributeError : CfgErr

/-- The working per-plot configuration of `_get_config_lineplots`: when a
`general` block has been seen, `recursive_merge` of the per-plot block
over it; otherwise the per-plot block itself.  With a `general` block
present, Python raises on non-mapping operands — `AttributeError` when
the per-plot block has no `.items()`, `TypeError` when a key is tested
against a non-container `general` value (a non-mapping `general` with an
empty per-plot mapping would come back unchanged instead) — so the
embedding maps every such operand pair to `typeError`; every theorem
below stays on runs that succeed, which excludes these arms. -/
def mkWork (v : Val) (gen : Option Val) : Except CfgErr Val :=
  match gen, v with
  | some (Val.dict g), Val.dict m => Except.ok (Val.dict (recursive_merge m g))
  | some _, _ => Except.error CfgErr.typeError
  | none, _ => Except.ok v

/-- One of the four section updates of `_get_config_lineplots`: if `sec`
is present in the working block `w`, its value is passed to the section
loader and assigned into the output block `b`; a present value that is
not a mapping makes the loader call `.items()` on it, an
`AttributeError`; an absent section is skipped. -/
def applySection1 (b w : List (String × Val)) (sec : String)
    (loader : List (String × Val) → Except CfgErr (List (String × Val))) :
    Except CfgErr (List (String × Val)) :=
  match List.lookup sec w with
  | some (Val.dict s) =>
      match loader s with
      | Except.ok s2 => Except.ok (setEntry b sec (Val.dict s2))
      | Except.error e => Except.error e
  | some _ => Except.error CfgErr.attributeError
  | none => Except.ok b

/-- `_get_config_axis_section` from `openmmwrap/io/configio.py`: deep-copy
the section and filter its `label` and `ticklabels` sub-blocks with their
denylists; a present `label` or `ticklabels` value that is not a mapping
raises `AttributeError` (`.items()` on it). -/
def get_config_axis_section (c : List (String × Val)) :
    Except CfgErr (List (String × Val)) :=
  match
    (match List.lookup ("label") c with
     | some (Val.dict m) =>
         Except.ok (setEntry c ("label")
           (Val.dict (filterKeys m OPTIONS_IGNORED_LABEL)))
     | some _ => Except.error CfgErr.attributeError
     | none => Except.ok c) with
  | Except.error e => Except.error e
  | Except.ok c1 =>
      match List.lookup ("ticklabels") c with
      | some (Val.dict m) =>
          Except.ok (setEntry c1 ("ticklabels")
            (Val.dict (filterKeys m OPTIONS_IGNORED_TICKLABELS)))
      | some _ => Except.error CfgErr.attributeError
      | none => Except.ok c1

/-- The four sequential section updates that `_get_config_lineplots`
performs on `config_updated[plot]`: each of `lineplot`, `title`, `xaxis`
and `yaxis` found in the working block `wb` is loaded through its section
filter and assigned into the output block `base` (the untouched copy of
the original per-plot block); absent sections are skipped, and a present
non-mapping section value propagates the `AttributeError` of its loader.
A non-mapping working block raises in Python when a section-name
membership test hits it (`TypeError` for an `int`; a `str` or `list`
raises only when the test matches and passes through unchanged
otherwise): the embedding maps every non-mapping block to `typeError`,
and every theorem below stays on runs that succeed, which excludes these
arms. -/
def applySections (base : Val) (wb : Val) : Except CfgErr Val :=
  match base, wb with
  | Val.dict b, Val.dict w =>
      match applySection1 b w ("lineplot")
          (fun s => Except.ok (get_config_lineplot_section s)) with
      | Except.error e => Except.error e
      | Except.ok b1 =>
          match applySection1 b1 w ("title")
              (fun s => Except.ok (get_config_title_section s)) with
          | Except.error e => Except.error e
          | Except.ok b2 =>
              match applySection1 b2 w ("xaxis") get_config_axis_section with
              | Except.error e => Except.error e
              | Except.ok b3 =>
                  match applySection1 b3 w ("yaxis") get_config_axis_section with
                  | Except.error e => Except.error e
                  | Except.ok b4 => Except.ok (Val.dict b4)
  | _, _ => Except.error CfgErr.typeError

/-- `dict.pop(k)` as it affects the dictionary: remove the (unique) entry
with key `k`. -/
def eraseKey {β : Type} : List (String × β) → String → List (String × β)
  | [], _ => []
  | (k1, v1) :: rest, k => if k1 = k then rest else (k1, v1) :: eraseKey rest k

/-- The `for plot in config` loop of `_get_config_lineplots`.  `entries`
is the iteration front of the original mapping, `gen` the
`config_general` variable (`none` until a `general` key has been
encountered, at which point the key is popped from the accumulator), and
`upd` the `config_updated` accumulator.  Errors raised by the merge or
by the section filters propagate out of the loop.  The `none` arm
mirrors the `KeyError` of `config_updated[plot]`, unreachable because
the accumulator always contains every not-yet-processed key (Python only
touches `config_updated[plot]` when a section is present, so neither
side ever takes this arm). -/
def lineplotsLoop : List (String × Val) → Option Val → List (String × Val) →
    Except CfgErr (List (String × Val))
  | [], _, upd => Except.ok upd
  | (plot, v) :: rest, gen, upd =>
      if plot = "general" then
        lineplotsLoop rest (some v) (eraseKey upd ("general"))
      else
        match mkWork v gen with
        | Except.error e => Except.error e
        | Except.ok wb =>
            match List.lookup plot upd with
            | some base =>
                match applySections base wb with
                | Except.error e => Except.error e
                | Except.ok nb => lineplotsLoop rest gen (setEntry upd plot nb)
            | none => Except.error (CfgErr.keyError plot)

/-- `_get_config_lineplots` from `openmmwrap/io/configio.py`. -/
def get_config_lineplots (config : List (String × Val)) :
    Except CfgErr (List (String × Val)) :=
  lineplotsLoop config none config

/-- The `general` block in force when the loop of `_get_config_lineplots`
reaches `plot`, starting from state `gen`: the most recent `general`
entry strictly before the first occurrence of `plot`. -/
def genAt : List (String × Val) → Option Val → String → Option Val
  | [], gen, _ => gen
  | (k, v) :: rest, gen, plot =>
      if k = "general" then genAt rest (some v) plot
      else if k = plot then gen
      else genAt rest gen plot

/-- The `general` block that `_get_config_lineplots` applies to `plot`:
present only when the `general` key occurs before `plot` in the
insertion order of the mapping. -/
def generalBefore (config : List (String × Val)) (plot : String) : Option Val :=
  genAt config none plot

/-- `PLOT_TYPES` from `load_config_plot`. -/
def PLOT_TYPES : List String := ["lineplots"]

/-- `load_config_plot` from `openmmwrap/io/configio.py`, applied to the
already-parsed YAML mapping: validate the `type` discriminator (missing
value or a value outside `PLOT_TYPES` raises `ValueError` before any
section is touched), filter the optional `output` section, and normalize
the `plot` section through `_get_config_lineplots` when the type is
`lineplots`. -/
def load_config_plot (config : List (String × Val)) :
    Except CfgErr (List (String × Val)) :=
  match List.lookup ("type") config with
  | none => Except.error CfgErr.valueError
  | some t =>
      match t with
      | Val.str s =>
          if PLOT_TYPES.contains s then
            let config1 :=
              match List.lookup ("output") config with
              | some (Val.dict o) =>
                  setEntry config ("output")
                    (Val.dict (get_config_output_section o))
              | _ => config
            match List.lookup ("plot") config1 with
            | some (Val.dict p) =>
                (match get_config_lineplots p with
                 | Except.ok p2 =>
                     Except.ok (setEntry config1 ("plot") (Val.dict p2))
                 | Except.error e => Except.error e)
            | some _ => Except.error CfgErr.typeError
            | none => Except.error (CfgErr.keyError ("plot"))
          else Except.error CfgErr.valueError
      | _ => Except.error CfgErr.valueError

/-- Keys of `setEntry m k v` are among `k` and the keys of `m`. -/
theorem keys_setEntry_subset {β : Type} (m : List (String × β)) (k : String) (v : β) :
    ∀ k1, k1 ∈ (setEntry m k v).map Prod.fst → k1 = k ∨ k1 ∈ m.map Prod.fst := by
  induction m with
  | nil =>
      intro k1 h
      simp only [setEntry, List.map_cons, List.map_nil] at h
      exact Or.inl (List.mem_singleton.mp h)
  | cons p rest ih =>
      intro k1 h
      obtain ⟨k0, v0⟩ := p
      by_cases h0 : k0 = k
      · subst h0
        simp only [setEntry, if_pos rfl, List.map_cons] at h
        rcases List.mem_cons.mp h with h1 | h1
        · exact Or.inl h1
        · exact Or.inr (List.mem_cons.mpr (Or.inr h1))
      · simp only [setEntry, h0, if_false, List.map_cons] at h
        rcases List.mem_cons.mp h with h1 | h1
        · exact Or.inr (List.mem_cons.mpr (Or.inl h1))
        · rcases ih k1 h1 with h2 | h2
          · exact Or.inl h2
          · exact Or.inr (List.mem_cons.mpr (Or.inr h2))

/-- `setEntry` preserves distinctness of keys. -/
theorem keysNodup_setEntry {β : Type} (m : List (String × β)) (k : String) (v : β)
    (h : keysNodup m) : keysNodup (setEntry m k v) := by
  induction m with
  | nil => simp [setEntry, keysNodup]
  | cons p rest ih =>
      obtain ⟨k0, v0⟩ := p
      simp only [keysNodup, List.map_cons, List.nodup_cons] at h
      by_cases h0 : k0 = k
      · subst h0
        simp only [setEntry, if_pos rfl, ite_true, eq_self_iff_true, keysNodup,
          List.map_cons, List.nodup_cons]
        exact h
      · have hrest := ih h.2
        simp only [setEntry, h0, if_false, keysNodup, List.map_cons, List.nodup_cons]
        refine ⟨fun hmem => ?_, hrest⟩
        rcases keys_setEntry_subset rest k v k0 hmem with h2 | h2
        · exact h0 h2
        · exact h.1 h2

/-- Keys of `eraseKey m k` are keys of `m`. -/
theorem keys_eraseKey_subset {β : Type} (m : List (String × β)) (k : String) :
    ∀ k1, k1 ∈ (eraseKey m k).map Prod.fst → k1 ∈ m.map Prod.fst := by
  induction m with
  | nil =>
      intro k1 h
      simp only [eraseKey, List.map_nil] at h
      exact absurd h (List.not_mem_nil k1)
  | cons p rest ih =>
      intro k1 h
      obtain ⟨k0, v0⟩ := p
      by_cases h0 : k0 = k
      · subst h0
        simp only [eraseKey, if_pos rfl] at h
        exact List.mem_cons.mpr (Or.inr h)
      · simp only [eraseKey, h0, if_false, List.map_cons] at h
        rcases List.mem_cons.mp h with h1 | h1
        · exact List.mem_cons.mpr (Or.inl h1)
        · exact List.mem_cons.mpr (Or.inr (ih k1 h1))

/-- `eraseKey` preserves distinctness of keys. -/
theorem keysNodup_eraseKey {β : Type} (m : List (String × β)) (k : String)
    (h : keysNodup m) : keysNodup (eraseKey m k) := by
  induction m with
  | nil => simpa [eraseKey] using h
  | cons p rest ih =>
      obtain ⟨k0, v0⟩ := p
      simp only [keysNodup, List.map_cons, List.nodup_cons] at h
      by_cases h0 : k0 = k
      · subst h0
        simp only [eraseKey, if_pos rfl]
        exact h.2
      · simp only [eraseKey, h0, if_false, keysNodup, List.map_cons, List.nodup_cons]
        exact ⟨fun hmem => h.1 (keys_eraseKey_subset rest k k0 hmem), ih h.2⟩

/-- Keys absent from a dictionary look up to `none`. -/
theorem lookup_eq_none_of_notin {β : Type} (m : List (String × β)) (k : String)
    (h : k ∉ m.map Prod.fst) : List.lookup k m = none := by
  induction m with
  | nil => simp [List.lookup]
  | cons p rest ih =>
      obtain ⟨k0, v0⟩ := p
      simp only [List.map_cons, List.mem_cons, not_or] at h
      have hb : (k == k0) = false := beq_eq_false_iff_ne.mpr h.1
      simp [List.lookup, hb, ih h.2]

/-- Erasing `k` from a distinct-key dictionary removes it entirely. -/
theorem lookup_eraseKey_self {β : Type} (m : List (String × β)) (k : String)
    (h : keysNodup m) : List.lookup k (eraseKey m k) = none := by
  induction m with
  | nil => simp [eraseKey, List.lookup]
  | cons p rest ih =>
      obtain ⟨k0, v0⟩ := p
      simp only [keysNodup, List.map_cons, List.nodup_cons] at h
      by_cases h0 : k0 = k
      · subst h0
        simp only [eraseKey, if_pos rfl]
        exact lookup_eq_none_of_notin rest k0 h.1
      · have hb : (k == k0) = false := beq_eq_false_iff_ne.mpr (fun hh => h0 hh.symm)
        simp [eraseKey, h0, List.lookup, hb, ih h.2]

/-- Erasing one key leaves lookups of other keys unchanged. -/
theorem lookup_eraseKey_ne {β : Type} (m : List (String × β)) (k k1 : String)
    (h : k ≠ k1) : List.lookup k1 (eraseKey m k) = List.lookup k1 m := by
  induction m with
  | nil => simp [eraseKey]
  | cons p rest ih =>
      obtain ⟨k0, v0⟩ := p
      by_cases h0 : k0 = k
      · subst h0
        have hb : (k1 == k0) = false := beq_eq_false_iff_ne.mpr (fun hh => h hh.symm)
        simp [eraseKey, List.lookup, hb]
      · simp [eraseKey, h0, List.lookup, ih]

/-- In a distinct-key dictionary, membership determines the lookup. -/
theorem lookup_of_mem_nodup {β : Type} (m : List (String × β)) (k : String) (v : β)
    (hnd : keysNodup m) (hmem : (k, v) ∈ m) : List.lookup k m = some v := by
  induction m with
  | nil => simp at hmem
  | cons p rest ih =>
      obtain ⟨k0, v0⟩ := p
      simp only [keysNodup, List.map_cons, List.nodup_cons] at hnd
      rcases List.mem_cons.mp hmem with heq | hrest
      · have hk : k = k0 := congrArg Prod.fst heq
        subst hk
        have hv : v = v0 := congrArg Prod.snd heq
        subst hv
        simp [List.lookup]
      · have hk0 : k ≠ k0 := by
          intro h
          subst h
          exact hnd.1 (List.mem_map.mpr ⟨(k, v), hrest, rfl⟩)
        have hb : (k == k0) = false := beq_eq_false_iff_ne.mpr hk0
        simp only [List.lookup, hb]
        exact ih hnd.2 hrest

/-- Unfolding of the lineplots loop at a `general` entry. -/
theorem lineplotsLoop_cons_general (v0 : Val) (rest : List (String × Val))
    (gen : Option Val) (upd : List (String × Val)) :
    lineplotsLoop (("general", v0) :: rest) gen upd =
      lineplotsLoop rest (some v0) (eraseKey upd ("general")) := by
  simp [lineplotsLoop]

/-- Unfolding of the lineplots loop at a non-`general` entry. -/
theorem lineplotsLoop_cons_ne (p0 : String) (v0 : Val) (rest : List (String × Val))
    (gen : Option Val) (upd : List (String × Val)) (h : p0 ≠ "general") :
    lineplotsLoop ((p0, v0) :: rest) gen upd =
      match mkWork v0 gen with
      | Except.error e => Except.error e
      | Except.ok wb =>
          match List.lookup p0 upd with
          | some base =>
              match applySections base wb with
              | Except.error e => Except.error e
              | Except.ok nb => lineplotsLoop rest gen (setEntry upd p0 nb)
          | none => Except.error (CfgErr.keyError p0) := by
  simp [lineplotsLoop, h]

/-- Unfolding of `genAt` at a `general` entry. -/
theorem genAt_cons_general (v0 : Val) (rest : List (String × Val))
    (gen : Option Val) (plot : String) :
    genAt (("general", v0) :: rest) gen plot = genAt rest (some v0) plot := by
  simp [genAt]

/-- Unfolding of `genAt` at the entry of `plot` itself. -/
theorem genAt_cons_self (v0 : Val) (rest : List (String × Val))
    (gen : Option Val) (plot : String) (h : plot ≠ "general") :
    genAt ((plot, v0) :: rest) gen plot = gen := by
  simp [genAt, h]

/-- Unfolding of `genAt` at an unrelated entry. -/
theorem genAt_cons_ne (p0 : String) (v0 : Val) (rest : List (String × Val))
    (gen : Option Val) (plot : String) (h : p0 ≠ "general") (h2 : p0 ≠ plot) :
    genAt ((p0, v0) :: rest) gen plot = genAt rest gen plot := by
  simp [genAt, h, h2]

/-- When the lineplots loop returns, keys that are not on its iteration
front read back unchanged (besides the popped `general`). -/
theorem lineplotsLoop_lookup_preserve (entries : List (String × Val)) :
    ∀ (gen : Option Val) (upd out : List (String × Val)) (plot : String),
      plot ∉ entries.map Prod.fst → plot ≠ "general" →
      lineplotsLoop entries gen upd = Except.ok out →
      List.lookup plot out = List.lookup plot upd := by
  induction entries with
  | nil =>
      intro gen upd out plot _ _ hok
      simp only [lineplotsLoop] at hok
      injection hok with h2
      rw [← h2]
  | cons p rest ih =>
      intro gen upd out plot hnotin hng hok
      obtain ⟨p0, v0⟩ := p
      simp only [List.map_cons, List.mem_cons, not_or] at hnotin
      by_cases h0 : p0 = "general"
      · subst h0
        rw [lineplotsLoop_cons_general] at hok
        rw [ih _ _ _ _ hnotin.2 hng hok,
          lookup_eraseKey_ne _ _ _ (fun hh => hng hh.symm)]
      · rw [lineplotsLoop_cons_ne _ _ _ _ _ h0] at hok
        cases hmk : mkWork v0 gen with
        | error e =>
            simp only [hmk] at hok
            exact Except.noConfusion hok
        | ok wb =>
            simp only [hmk] at hok
            cases hl : List.lookup p0 upd with
            | none =>
                simp only [hl] at hok
                exact Except.noConfusion hok
            | some base =>
                simp only [hl] at hok
                cases happ : applySections base wb with
                | error e =>
                    simp only [happ] at hok
                    exact Except.noConfusion hok
                | ok nb =>
                    simp only [happ] at hok
                    rw [ih _ _ _ _ hnotin.2 hng hok,
                      lookup_setEntry_ne _ _ _ _ (fun hh => hnotin.1 hh.symm)]

/-- When the lineplots loop returns, the `general` key is gone: it is
popped when encountered and never written back. -/
theorem lineplotsLoop_general_none (entries : List (String × Val)) :
    ∀ (gen : Option Val) (upd out : List (String × Val)), keysNodup upd →
      ("general" ∈ entries.map Prod.fst ∨ List.lookup ("general") upd = none) →
      lineplotsLoop entries gen upd = Except.ok out →
      List.lookup ("general") out = none := by
  induction entries with
  | nil =>
      intro gen upd out _ hdis hok
      simp only [lineplotsLoop] at hok
      injection hok with h2
      rcases hdis with h | h
      · exact absurd h (List.not_mem_nil _)
      · rw [← h2]
        exact h
  | cons p rest ih =>
      intro gen upd out hnd hdis hok
      obtain ⟨p0, v0⟩ := p
      by_cases h0 : p0 = "general"
      · subst h0
        rw [lineplotsLoop_cons_general] at hok
        exact ih _ _ _ (keysNodup_eraseKey _ _ hnd)
          (Or.inr (lookup_eraseKey_self _ _ hnd)) hok
      · rw [lineplotsLoop_cons_ne _ _ _ _ _ h0] at hok
        have hdis2 : "general" ∈ rest.map Prod.fst ∨
            List.lookup ("general") upd = none := by
          rcases hdis with h | h
          · rw [List.map_cons] at h
            rcases List.mem_cons.mp h with h1 | h1
            · exact absurd h1 (fun hh => h0 hh.symm)
            · exact Or.inl h1
          · exact Or.inr h
        cases hmk : mkWork v0 gen with
        | error e =>
            simp only [hmk] at hok
            exact Except.noConfusion hok
        | ok wb =>
            simp only [hmk] at hok
            cases hl : List.lookup p0 upd with
            | none =>
                simp only [hl] at hok
                exact Except.noConfusion hok
            | some base =>
                simp only [hl] at hok
                cases happ : applySections base wb with
                | error e =>
                    simp only [happ] at hok
                    exact Except.noConfusion hok
                | ok nb =>
                    simp only [happ] at hok
                    refine ih _ _ _ (keysNodup_setEntry _ _ _ hnd) ?_ hok
                    rcases hdis2 with h | h
                    · exact Or.inl h
                    · exact Or.inr
                        (by rw [lookup_setEntry_ne _ _ _ _ (fun hh => h0 hh), h])

/-- Per-key characterization of a successful lineplots run: the working
block of `plot` is the merge with the `general` defaults in force when
the iteration reaches it, the section filters succeed on it, and the
output binds `plot` to the filtered block. -/
theorem lineplotsLoop_char (entries : List (String × Val)) :
    ∀ (gen : Option Val) (upd out : List (String × Val)) (plot : String) (v : Val),
      keysNodup entries → keysNodup upd → plot ≠ "general" →
      (plot, v) ∈ entries → List.lookup plot upd = some v →
      lineplotsLoop entries gen upd = Except.ok out →
      ∃ wb nb, mkWork v (genAt entries gen plot) = Except.ok wb ∧
        applySections v wb = Except.ok nb ∧
        List.lookup plot out = some nb := by
  induction entries with
  | nil =>
      intro gen upd out plot v _ _ _ hmem _ _
      simp at hmem
  | cons p rest ih =>
      intro gen upd out plot v hnd hndu hng hmem hl hok
      obtain ⟨p0, v0⟩ := p
      simp only [keysNodup, List.map_cons, List.nodup_cons] at hnd
      by_cases h0 : p0 = "general"
      · subst h0
        have hrest : (plot, v) ∈ rest := by
          rcases List.mem_cons.mp hmem with heq | h
          · exact absurd (congrArg Prod.fst heq) hng
          · exact h
        rw [lineplotsLoop_cons_general] at hok
        rw [genAt_cons_general]
        exact ih _ _ _ _ _ hnd.2 (keysNodup_eraseKey _ _ hndu) hng hrest
          (by rw [lookup_eraseKey_ne _ _ _ (fun hh => hng hh.symm)]; exact hl) hok
      · rw [lineplotsLoop_cons_ne _ _ _ _ _ h0] at hok
        rcases List.mem_cons.mp hmem with heq | hrest
        · have hk2 : plot = p0 := congrArg Prod.fst heq
          subst hk2
          have hv : v = v0 := congrArg Prod.snd heq
          subst hv
          rw [genAt_cons_self _ _ _ _ hng]
          cases hmk : mkWork v gen with
          | error e =>
              simp only [hmk] at hok
              exact Except.noConfusion hok
          | ok wb =>
              simp only [hmk, hl] at hok
              cases happ : applySections v wb with
              | error e =>
                  simp only [happ] at hok
                  exact Except.noConfusion hok
              | ok nb =>
                  simp only [happ] at hok
                  refine ⟨wb, nb, rfl, happ, ?_⟩
                  have hnotin : plot ∉ rest.map Prod.fst := hnd.1
                  rw [lineplotsLoop_lookup_preserve _ _ _ _ _ hnotin hng hok,
                    lookup_setEntry_self]
        · have hk0 : plot ≠ p0 := by
            intro h
            subst h
            exact hnd.1 (List.mem_map.mpr ⟨(plot, v), hrest, rfl⟩)
          rw [genAt_cons_ne _ _ _ _ _ h0 (fun hh => hk0 hh.symm)]
          cases hmk : mkWork v0 gen with
          | error e =>
              simp only [hmk] at hok
              exact Except.noConfusion hok
          | ok wb =>
              simp only [hmk] at hok
              cases hlp : List.lookup p0 upd with
              | none =>
                  simp only [hlp] at hok
                  exact Except.noConfusion hok
              | some base =>
                  simp only [hlp] at hok
                  cases happ : applySections base wb with
                  | error e =>
                      simp only [happ] at hok
                      exact Except.noConfusion hok
                  | ok nb =>
                      simp only [happ] at hok
                      exact ih _ _ _ _ _ hnd.2 (keysNodup_setEntry _ _ _ hndu)
                        hng hrest
                        (by rw [lookup_setEntry_ne _ _ _ _ (fun hh => hk0 hh.symm)]
                            exact hl) hok

/-- C4 counterexample: in a configuration where the `general` block comes
after plot `p1`, the normalizer returns with `p1` untouched, although
applying the `general` defaults underneath it (what the claim requires
regardless of position) succeeds and would add a filtered `title`
section. -/
theorem claim_C4_counterexample :
    get_config_lineplots
        [("p1", Val.dict []),
         ("general", Val.dict [("title", Val.dict [("fontsize", Val.int 10)])])] =
      Except.ok [("p1", Val.dict [])] ∧
    mkWork (Val.dict [])
        (some (Val.dict [("title", Val.dict [("fontsize", Val.int 10)])])) =
      Except.ok (Val.dict [("title", Val.dict [("fontsize", Val.int 10)])]) ∧
    applySections (Val.dict [])
        (Val.dict [("title", Val.dict [("fontsize", Val.int 10)])]) =
      Except.ok (Val.dict [("title", Val.dict [("fontsize", Val.int 10)])]) ∧
    Val.dict ([] : List (String × Val)) ≠
      Val.dict [("title", Val.dict [("fontsize", Val.int 10)])] := by
  refine ⟨?_, ?_, ?_, ?_⟩
  · simp [get_config_lineplots, lineplotsLoop, eraseKey, setEntry, applySections,
      applySection1, mkWork, List.lookup]
  · simp [mkWork, recursive_merge, rmAux]
  · simp [applySections, applySection1, get_config_title_section, filterKeys,
      OPTIONS_IGNORED_TITLE, List.lookup, setEntry]
  · intro h
    injection h with h1
    exact List.noConfusion h1

/-- C4 (amended): on every run of the normalizer that returns — it
propagates the `TypeError`/`AttributeError` of the corresponding Python
operation when a merge operand, a plot block or a present sub-section
value is not a mapping — the output block of each non-`general` plot key
is its original block with the four known sub-sections replaced by the
denylist-filtered sections of the working block, and the working block
merges the `general` defaults underneath the per-plot block only when
the `general` key precedes the plot key in the insertion order of the
mapping (otherwise it is the per-plot block itself); absent sub-sections
are skipped. -/
theorem claim_C4_general_merge_position (config out : List (String × Val))
    (plot : String) (v : Val) (hnd : keysNodup config)
    (hok : get_config_lineplots config = Except.ok out)
    (hng : plot ≠ "general") (hmem : (plot, v) ∈ config) :
    ∃ wb nb, mkWork v (generalBefore config plot) = Except.ok wb ∧
      applySections v wb = Except.ok nb ∧
      List.lookup plot out = some nb := by
  unfold get_config_lineplots at hok
  unfold generalBefore
  exact lineplotsLoop_char config none config out plot v hnd hnd hng hmem
    (lookup_of_mem_nodup config plot v hnd hmem) hok

/-- Concrete configuration whose `general` block precedes the plot block,
and the mapping the normalizer returns on it. -/
def cfgGeneralFirst : List (String × Val) :=
  [("general", Val.dict [("title", Val.dict [("color", Val.str "red")])]),
   ("p", Val.dict [])]

/-- The normalizer output for `cfgGeneralFirst`. -/
def outGeneralFirst : List (String × Val) :=
  [("p", Val.dict [("title", Val.dict [("color", Val.str "red")])])]

/-- Witness for C4 (amended) at a concrete configuration on which the
normalizer returns, with `general` preceding the plot block. -/
theorem claim_C4_general_merge_position_witness :
    ∃ wb nb,
      mkWork (Val.dict []) (generalBefore cfgGeneralFirst ("p")) = Except.ok wb ∧
      applySections (Val.dict []) wb = Except.ok nb ∧
      List.lookup ("p") outGeneralFirst = some nb :=
  claim_C4_general_merge_position cfgGeneralFirst outGeneralFirst ("p")
    (Val.dict []) (by simp [keysNodup, cfgGeneralFirst])
    (by simp [get_config_lineplots, cfgGeneralFirst, outGeneralFirst,
      lineplotsLoop, eraseKey, mkWork, recursive_merge, rmAux, applySections,
      applySection1, get_config_title_section, filterKeys,
      OPTIONS_IGNORED_TITLE, List.lookup, setEntry])
    (by simp) (by simp [cfgGeneralFirst])

/-- C10: whenever the normalizer returns a mapping, that mapping has no
`general` top-level key (the shared defaults block is removed), while
every other top-level key of the input is still a key of the output. -/
theorem claim_C10_general_removed (config out : List (String × Val))
    (hnd : keysNodup config)
    (hok : get_config_lineplots config = Except.ok out) :
    List.lookup ("general") out = none ∧
    ∀ (plot : String) (v : Val), plot ≠ "general" → (plot, v) ∈ config →
      (List.lookup plot out).isSome := by
  unfold get_config_lineplots at hok
  constructor
  · refine lineplotsLoop_general_none config none config out hnd ?_ hok
    by_cases h : "general" ∈ config.map Prod.fst
    · exact Or.inl h
    · exact Or.inr (lookup_eq_none_of_notin _ _ h)
  · intro plot v hng hmem
    obtain ⟨wb, nb, _, _, hlp⟩ := lineplotsLoop_char config none config out plot v
      hnd hnd hng hmem (lookup_of_mem_nodup config plot v hnd hmem) hok
    rw [hlp]
    rfl

/-- Witness for C10 at a concrete configuration containing a `general`
block and one plot block, on which the normalizer returns. -/
theorem claim_C10_general_removed_witness :
    List.lookup ("general") outGeneralFirst = none ∧
    ∀ (plot : String) (v : Val), plot ≠ "general" → (plot, v) ∈ cfgGeneralFirst →
      (List.lookup plot outGeneralFirst).isSome :=
  claim_C10_general_removed cfgGeneralFirst outGeneralFirst
    (by simp [keysNodup, cfgGeneralFirst])
    (by simp [get_config_lineplots, cfgGeneralFirst, outGeneralFirst,
      lineplotsLoop, eraseKey, mkWork, recursive_merge, rmAux, applySections,
      applySection1, get_config_title_section, filterKeys,
      OPTIONS_IGNORED_TITLE, List.lookup, setEntry])

/-- C9: `load_config_plot` fails with a `ValueError` whenever the
configuration has no `type` key or its `type` value is anything other
than the string `lineplots`; in the `Except` embedding the error result
shows that no section normalization is performed. -/
theorem claim_C9_plot_type_required (config : List (String × Val))
    (h : ∀ s, List.lookup ("type") config = some (Val.str s) → s ≠ "lineplots") :
    load_config_plot config = Except.error CfgErr.valueError := by
  unfold load_config_plot
  cases hl : List.lookup ("type") config with
  | none => rfl
  | some t =>
      cases t with
      | str s =>
          have hs := h s hl
          have hb : (s == "lineplots") = false := beq_eq_false_iff_ne.mpr hs
          simp [PLOT_TYPES, List.contains, List.elem, hb]
      | int n => rfl
      | dict m => rfl
      | list l => rfl

/-- Witness for C9: a configuration with a `plot` section but no `type`
key is rejected. -/
theorem claim_C9_plot_type_required_witness :
    load_config_plot [("plot", Val.dict [])] = Except.error CfgErr.valueError :=
  claim_C9_plot_type_required _ (by
    intro s hs
    simp [List.lookup] at hs)

/-- One row (frame) of a state-data frame: the pandas integer index
label (state-data frames are loaded with the default `RangeIndex`, so
labels are the positions `0, 1, 2, ...` and double as the step order)
and the named scalar cells.  Cell values are rationals: every value in
the claims under study is exactly representable, so `ℚ` is a faithful
carrier for them. -/
structure Row where
  label : Nat
  cells : List (String × ℚ)
deriving DecidableEq

/-- `QUANTITIES2COLS` from `openmmwrap/io/defaults.py`. -/
def QUANTITIES2COLS : List (String × String) :=
  [("step", "Step"),
   ("time", "Time (ps)"),
   ("potential_energy", "Potential Energy (kJ/mole)"),
   ("kinetic_energy", "Kinetic Energy (kJ/mole)"),
   ("total_energy", "Total Energy (kJ/mole)"),
   ("temperature", "Temperature (K)"),
   ("box_volume", "Box Volume (nm^3)"),
   ("density", "Density (g/mL)"),
   ("mass", "Mass")]

/-- Column extraction `df[col]` as a labelled series: defined exactly
when every row carries the column (otherwise pandas raises `KeyError`). -/
def colValues : List Row → String → Option (List (Nat × ℚ))
  | [], _ => some []
  | r :: rest, c =>
      match List.lookup c r.cells, colValues rest c with
      | some q, some qs => some ((r.label, q) :: qs)
      | _, _ => none

/-- Arithmetic mean of a list of values (`Series.mean`). -/
def meanQ (vs : List ℚ) : ℚ := vs.sum / (vs.length : ℚ)

/-- Scan of `Series.idxmin`: the label of the first occurrence of the
minimum, tracking the current best label and value. -/
def idxminAux : List (Nat × ℚ) → Nat × ℚ → Nat
  | [], best => best.1
  | p :: rest, best =>
      if p.2 < best.2 then idxminAux rest p else idxminAux rest best

/-- `Series.idxmin`: first label attaining the minimum; pandas raises a
`ValueError` on an empty series. -/
def idxmin : List (Nat × ℚ) → Option Nat
  | [] => none
  | p :: rest => some (idxminAux rest p)

/-- `df.loc[label]` for a unique-label frame: the first row carrying the
index label. -/
def lookupRow (df : List Row) (l : Nat) : Option Row :=
  df.find? (fun r => r.label == l)

/-- Assignment of one cell of a row (position kept, appended if new). -/
def Row.setCell (r : Row) (c : String) (q : ℚ) : Row :=
  ⟨r.label, setEntry r.cells c q⟩

/-- `Series.drop(c)` on a selected row: remove the cell named `c`. -/
def Row.dropCell (r : Row) (c : String) : Row :=
  ⟨r.label, r.cells.filter (fun p => !(p.1 == c))⟩

/-- `df["diff"] = (df[col] - mean_value).abs()`: store the absolute
difference from the mean in the `diff` column of every row of `df`. -/
def addDiffCol (df : List Row) (col : String) (mean_value : ℚ) : List Row :=
  df.map (fun r => r.setCell ("diff") |(List.lookup col r.cells).getD 0 - mean_value|)

/-- Errors surfacing from `frameselection.py`.  `keyError`,
`valueErrorEmpty` (idxmin of an empty series) and `unboundLocalError`
(the `return closest_frame` fall-through of `find_frame` when no branch
assigned the variable) are the errors the code can actually raise.
`unsupportedMethod` is modelled from the spec: the specification names a
dedicated `UnsupportedMethod` error for unknown selection methods, but
no such error class exists anywhere in the code, so no run can produce
this constructor; it exists only so that the spec claim about it can be
stated and compared against the behaviour of the code. -/
inductive PdErr where
  | keyError : String → PdErr
  | valueErrorEmpty : PdErr
  | unboundLocalError : PdErr
  | unsupportedMethod : PdErr
deriving DecidableEq

/-- `_get_frame_closest_to_average` from `openmmwrap/md/frameselection.py`,
with the caller frame state made explicit: the result is the pair of the
caller data frame after the call and the returned row (or raised error).

Pandas object semantics embedded here: `second_half = df.iloc[middle:]`
creates a separate frame object whose column set is fixed at slice time.
When `use_second_half` is true, the local name `df` is rebound to that
slice, so `df["diff"] = ...` adds the column to the slice object only and
the caller frame is returned unchanged.  When `use_second_half` is false,
`df["diff"] = ...` adds the `diff` column to the caller frame in place —
a mutation that persists after the call — while the `second_half` slice,
taken before the assignment, still lacks that column, so the subsequent
`second_half["diff"]` raises `KeyError` unless the input frame already
carried a `diff` column (in which case the slice holds the stale values
captured at slice time). -/
def getFrameClosestToAverage (df : List Row) (quantity : String)
    (use_second_half : Bool) : List Row × Except PdErr Row :=
  let middle_index := df.length / 2
  let second_half := df.drop middle_index
  match List.lookup quantity QUANTITIES2COLS with
  | none => (df, Except.error (PdErr.keyError quantity))
  | some col =>
      if use_second_half then
        match colValues second_half col with
        | none => (df, Except.error (PdErr.keyError col))
        | some vals =>
            let mean_value := meanQ (vals.map Prod.snd)
            let working := addDiffCol second_half col mean_value
            match idxmin (vals.map (fun lv => (lv.1, |lv.2 - mean_value|))) with
            | none => (df, Except.error PdErr.valueErrorEmpty)
            | some lab =>
                match lookupRow working lab with
                | none => (df, Except.error (PdErr.keyError ("loc")))
                | some row => (df, Except.ok (row.dropCell ("diff")))
      else
        match colValues df col with
        | none => (df, Except.error (PdErr.keyError col))
        | some vals =>
            let mean_value := meanQ (vals.map Prod.snd)
            let df1 := addDiffCol df col mean_value
            match colValues second_half ("diff") with
            | none => (df1, Except.error (PdErr.keyError ("diff")))
            | some dvals =>
                match idxmin dvals with
                | none => (df1, Except.error PdErr.valueErrorEmpty)
                | some lab =>
                    match lookupRow df1 lab with
                    | none => (df1, Except.error (PdErr.keyError ("loc")))
                    | some row => (df1, Except.ok (row.dropCell ("diff")))

/-- `find_frame` from `openmmwrap/md/frameselection.py`: dispatch over the
six supported method strings; for any other method no branch assigns
`closest_frame` and the final `return closest_frame` raises
`UnboundLocalError`. -/
def find_frame (df : List Row) (method : String) : List Row × Except PdErr Row :=
  if method = "closest_to_mean_temperature" then
    getFrameClosestToAverage df ("temperature") false
  else if method = "closest_to_mean_temperature_second_half" then
    getFrameClosestToAverage df ("temperature") true
  else if method = "closest_to_mean_density" then
    getFrameClosestToAverage df ("density") false
  else if method = "closest_to_mean_density_second_half" then
    getFrameClosestToAverage df ("density") true
  else if method = "closest_to_mean_volume" then
    getFrameClosestToAverage df ("box_volume") false
  else if method = "closest_to_mean_volume_second_half" then
    getFrameClosestToAverage df ("box_volume") true
  else (df, Except.error PdErr.unboundLocalError)

/-- A temperature-only row with the given index label and value. -/
def tempRow (i : Nat) (t : ℚ) : Row := ⟨i, [("Temperature (K)", t)]⟩

/-- The ten-row temperature series of the end-to-end scenario in the
specification: steps 0..9, values 10, 12, 11, 13, 9, 14, 10, 13, 12, 11. -/
def df10 : List Row :=
  [tempRow 0 10, tempRow 1 12, tempRow 2 11, tempRow 3 13, tempRow 4 9,
   tempRow 5 14, tempRow 6 10, tempRow 7 13, tempRow 8 12, tempRow 9 11]

/-- Decidable equality of `Except` results, used to evaluate the frame
selector on concrete inputs. -/
instance {ε α : Type} [DecidableEq ε] [DecidableEq α] :
    DecidableEq (Except ε α) := fun a b =>
  match a, b with
  | Except.error e1, Except.error e2 =>
      if h : e1 = e2 then Decidable.isTrue (congrArg Except.error h)
      else Decidable.isFalse (fun hh => h (Except.error.inj hh))
  | Except.ok x, Except.ok y =>
      if h : x = y then Decidable.isTrue (congrArg Except.ok h)
      else Decidable.isFalse (fun hh => h (Except.ok.inj hh))
  | Except.error _, Except.ok _ => Decidable.isFalse (fun hh => Except.noConfusion hh)
  | Except.ok _, Except.error _ => Decidable.isFalse (fun hh => Except.noConfusion hh)

/-- C1: on the ten-row temperature series of the specification scenario,
the whole-series method does not return the step-9 row: the code raises
`KeyError` on the `diff` column (assigned to the full frame only after
the second-half slice object was created, so the slice lacks it), and it
leaves the added `diff` column behind in the caller frame. -/
theorem claim_C1_whole_series_keyerror :
    (find_frame df10 ("closest_to_mean_temperature")).2 =
      Except.error (PdErr.keyError ("diff")) ∧
    (find_frame df10 ("closest_to_mean_temperature")).1 ≠ df10 := by decide

/-- C2 counterexample: the whole-series temperature method mutates the
caller series in place (a `diff` column is added to its rows). -/
theorem claim_C2_counterexample :
    (find_frame [tempRow 0 1, tempRow 1 2, tempRow 2 3, tempRow 3 4]
        ("closest_to_mean_temperature")).1 ≠
      [tempRow 0 1, tempRow 1 2, tempRow 2 3, tempRow 3 4] := by decide

/-- When `use_second_half` is true the helper only writes to the slice
object, so the caller frame state is returned unchanged on every path. -/
theorem getFrame_second_half_state (df : List Row) (q : String) :
    (getFrameClosestToAverage df q true).1 = df := by
  unfold getFrameClosestToAverage
  cases hq : List.lookup q QUANTITIES2COLS with
  | none => rfl
  | some col =>
      simp only [if_true]
      cases hv : colValues (df.drop (df.length / 2)) col with
      | none => rfl
      | some vals =>
          simp only []
          cases hi : idxmin (vals.map (fun lv =>
              (lv.1, |lv.2 - meanQ (vals.map Prod.snd)|))) with
          | none => rfl
          | some lab =>
              simp only []
              cases hr : lookupRow (addDiffCol (df.drop (df.length / 2)) col
                  (meanQ (vals.map Prod.snd))) lab with
              | none => rfl
              | some row => rfl

/-- C2 (amended): for the three second-half methods `find_frame` never
mutates the caller series and is idempotent: calling it again on the
state left by the first call yields the identical state and row.  (For
the three whole-series methods the claim fails: the caller series gains
a `diff` column in place, see the counterexample.) -/
theorem claim_C2_pure_second_half (df : List Row) (m : String)
    (hm : m = "closest_to_mean_temperature_second_half" ∨
      m = "closest_to_mean_density_second_half" ∨
      m = "closest_to_mean_volume_second_half") :
    (find_frame df m).1 = df ∧
    find_frame ((find_frame df m).1) m = find_frame df m := by
  have hstate : (find_frame df m).1 = df := by
    rcases hm with h | h | h <;> subst h <;>
      simp [find_frame, getFrame_second_half_state]
  exact ⟨hstate, by rw [hstate]⟩

/-- Witness for C2 (amended) on a concrete one-row series. -/
theorem claim_C2_pure_second_half_witness :
    (find_frame [tempRow 0 5] ("closest_to_mean_temperature_second_half")).1 =
      [tempRow 0 5] ∧
    find_frame ((find_frame [tempRow 0 5]
        ("closest_to_mean_temperature_second_half")).1)
      ("closest_to_mean_temperature_second_half") =
      find_frame [tempRow 0 5] ("closest_to_mean_temperature_second_half") :=
  claim_C2_pure_second_half _ _ (Or.inl rfl)

/-- C5 (amended): for every method string other than the six supported
combinations, `find_frame` fails without returning a frame, but the
failure is the `UnboundLocalError` of the `return closest_frame`
fall-through (no branch assigned the variable), not a dedicated
`UnsupportedMethod` error, which does not exist in the code. -/
theorem claim_C5_unsupported_method (df : List Row) (m : String)
    (hm : m ∉ ["closest_to_mean_temperature",
      "closest_to_mean_temperature_second_half",
      "closest_to_mean_density", "closest_to_mean_density_second_half",
      "closest_to_mean_volume", "closest_to_mean_volume_second_half"]) :
    find_frame df m = (df, Except.error PdErr.unboundLocalError) := by
  simp only [List.mem_cons, List.not_mem_nil, or_false, not_or] at hm
  obtain ⟨h1, h2, h3, h4, h5, h6⟩ := hm
  simp [find_frame, h1, h2, h3, h4, h5, h6]

/-- C5 counterexample: an unsupported method produces the
`UnboundLocalError` of the fall-through, which is not the
`UnsupportedMethod` error named by the specification. -/
theorem claim_C5_counterexample :
    find_frame [] ("closest_to_mean_pressure") =
      ([], Except.error PdErr.unboundLocalError) ∧
    PdErr.unboundLocalError ≠ PdErr.unsupportedMethod := by decide

/-- Witness for C5 (amended) at a concrete unsupported method string. -/
theorem claim_C5_unsupported_method_witness :
    find_frame [] ("closest_to_mean_energy") =
      ([], Except.error PdErr.unboundLocalError) :=
  claim_C5_unsupported_method [] _ (by decide)

/-- Absolute difference of the `col` value of a row from `m`. -/
def diffTo (col : String) (m : ℚ) (r : Row) : ℚ :=
  |(List.lookup col r.cells).getD 0 - m|

/-- Reference selector scan: walk the pool keeping the first row whose
absolute difference from `m` is minimal (strict improvement only, so the
earliest minimum wins). -/
def closestRowAux (col : String) (m : ℚ) : List Row → Row → ℚ → Row
  | [], best, _ => best
  | r :: rest, best, bd =>
      if diffTo col m r < bd then closestRowAux col m rest r (diffTo col m r)
      else closestRowAux col m rest best bd

/-- Reference description of the selection, purely as a function of the
candidate pool: the first row of the pool whose `col` value is closest to
the arithmetic mean of `col` over that same pool. -/
def closestRowToMean (pool : List Row) (col : String) : Option Row :=
  match colValues pool col with
  | none => none
  | some vals =>
      match pool with
      | [] => none
      | r0 :: rest =>
          some (closestRowAux col (meanQ (vals.map Prod.snd)) rest r0
            (diffTo col (meanQ (vals.map Prod.snd)) r0))

/-- A successful column extraction is the labelled list of cell values. -/
theorem colValues_eq_map (pool : List Row) (col : String) :
    ∀ (vals : List (Nat × ℚ)), colValues pool col = some vals →
      vals = pool.map (fun r => (r.label, (List.lookup col r.cells).getD 0)) := by
  induction pool with
  | nil =>
      intro vals h
      simp [colValues] at h
      simp [h.symm]
  | cons r rest ih =>
      intro vals h
      cases hl : List.lookup col r.cells with
      | none => simp [colValues, hl] at h
      | some q =>
          cases hcv : colValues rest col with
          | none => simp [colValues, hl, hcv] at h
          | some qs =>
              simp only [colValues, hl, hcv] at h
              have h2 := h.symm
              injection h2 with h3
              rw [h3, List.map_cons, hl]
              simp [ih qs hcv]

/-- The scan result is one of the candidates. -/
theorem closestRowAux_mem (col : String) (m : ℚ) (rest : List Row) :
    ∀ (best : Row) (bd : ℚ),
      closestRowAux col m rest best bd ∈ best :: rest := by
  induction rest with
  | nil =>
      intro best bd
      simp [closestRowAux]
  | cons r rs ih =>
      intro best bd
      rw [closestRowAux]
      by_cases hd : diffTo col m r < bd
      · simp only [hd, if_true]
        rcases List.mem_cons.mp (ih r (diffTo col m r)) with h | h
        · exact List.mem_cons.mpr (Or.inr (List.mem_cons.mpr (Or.inl h)))
        · exact List.mem_cons.mpr (Or.inr (List.mem_cons.mpr (Or.inr h)))
      · simp only [hd, if_false]
        rcases List.mem_cons.mp (ih best bd) with h | h
        · exact List.mem_cons.mpr (Or.inl h)
        · exact List.mem_cons.mpr (Or.inr (List.mem_cons.mpr (Or.inr h)))

/-- The label-level `idxmin` scan over the diff series agrees with the
row-level reference scan. -/
theorem idxminAux_eq_closestRowAux (col : String) (m : ℚ) (rest : List Row) :
    ∀ (best : Row) (bd : ℚ),
      idxminAux (rest.map (fun r => (r.label, diffTo col m r))) (best.label, bd) =
        (closestRowAux col m rest best bd).label := by
  induction rest with
  | nil =>
      intro best bd
      simp [idxminAux, closestRowAux]
  | cons r rs ih =>
      intro best bd
      by_cases hd : diffTo col m r < bd
      · simp only [List.map_cons, idxminAux, closestRowAux, hd, if_true]
        exact ih r (diffTo col m r)
      · simp only [List.map_cons, idxminAux, closestRowAux, hd, if_false]
        exact ih best bd

/-- `df.loc` over a label-preserving row transformation of a
unique-label pool finds the transformed row. -/
theorem lookupRow_map (f : Row → Row) (hf : ∀ r, (f r).label = r.label) :
    ∀ (pool : List Row) (rc : Row), rc ∈ pool → (pool.map Row.label).Nodup →
      lookupRow (pool.map f) rc.label = some (f rc) := by
  intro pool
  induction pool with
  | nil =>
      intro rc hmem _
      simp at hmem
  | cons p ps ih =>
      intro rc hmem hnd
      simp only [List.map_cons, List.nodup_cons] at hnd
      rcases List.mem_cons.mp hmem with heq | hrest
      · subst heq
        simp [lookupRow, List.find?, hf]
      · have hne : p.label ≠ rc.label := by
          intro h
          exact hnd.1 (h ▸ List.mem_map.mpr ⟨rc, hrest, rfl⟩)
        have hb : ((f p).label == rc.label) = false := by
          rw [hf p]
          exact beq_eq_false_iff_ne.mpr hne
        simp only [lookupRow, List.map_cons, List.find?, hb]
        exact ih rc hrest hnd.2

/-- Dropping the cell just added by `setCell` restores the row, provided
the cell was absent before. -/
theorem dropCell_setCell_of_absent (r : Row) (c : String) (q : ℚ)
    (h : List.lookup c r.cells = none) : (r.setCell c q).dropCell c = r := by
  obtain ⟨lab, cells⟩ := r
  simp only [Row.setCell, Row.dropCell, Row.mk.injEq, true_and]
  induction cells with
  | nil =>
      simp [setEntry, List.filter]
  | cons p rest ih =>
      obtain ⟨k1, v1⟩ := p
      by_cases hk : c == k1
      · simp [List.lookup, hk] at h
      · have hk2 : ¬ k1 = c := by
          intro hh
          subst hh
          simp at hk
        have hrest : List.lookup c rest = none := by
          simpa [List.lookup, hk] using h
        have hk3 : (k1 == c) = false := beq_eq_false_iff_ne.mpr hk2
        simp only [setEntry, hk2, if_false, List.filter, hk3, Bool.not_false]
        rw [ih hrest]

/-- A nonempty frame has a nonempty second half. -/
theorem drop_half_ne_nil (df : List Row) (h : df ≠ []) :
    df.drop (df.length / 2) ≠ [] := by
  intro hd
  rw [List.drop_eq_nil_iff] at hd
  have hpos : 0 < df.length := List.length_pos.mpr h
  have h2 : df.length / 2 < df.length := Nat.div_lt_self hpos (by omega)
  omega

/-- Distinct labels survive taking the second half. -/
theorem nodup_labels_drop (df : List Row) (n : Nat)
    (h : (df.map Row.label).Nodup) : ((df.drop n).map Row.label).Nodup :=
  List.Nodup.sublist (List.Sublist.map Row.label (List.drop_sublist n df)) h

/-- On the `use_second_half` path the helper returns, with the caller
frame untouched, exactly the row that `closestRowToMean` selects from the
second half: both the mean and the candidate pool are the rows
`[len df / 2, len df)`. -/
theorem getFrame_second_half_result (df : List Row) (q col : String)
    (hq : List.lookup q QUANTITIES2COLS = some col) (hne : df ≠ [])
    (hvals : (colValues (df.drop (df.length / 2)) col).isSome)
    (hnd : (df.map Row.label).Nodup)
    (hdiff : ∀ r ∈ df, List.lookup ("diff") r.cells = none) :
    ∃ rc, closestRowToMean (df.drop (df.length / 2)) col = some rc ∧
      getFrameClosestToAverage df q true = (df, Except.ok rc) := by
  obtain ⟨vals, hv⟩ := Option.isSome_iff_exists.mp hvals
  have hplne : df.drop (df.length / 2) ≠ [] := drop_half_ne_nil df hne
  obtain ⟨r0, rest, hpe⟩ : ∃ r0 rest, df.drop (df.length / 2) = r0 :: rest := by
    cases hx : df.drop (df.length / 2) with
    | nil => exact absurd hx hplne
    | cons a b => exact ⟨a, b, rfl⟩
  have hndp : ((df.drop (df.length / 2)).map Row.label).Nodup :=
    nodup_labels_drop df _ hnd
  have hvm := colValues_eq_map _ col vals hv
  have hdiffs : vals.map (fun lv => (lv.1, |lv.2 - meanQ (vals.map Prod.snd)|)) =
      (df.drop (df.length / 2)).map
        (fun r => (r.label, diffTo col (meanQ (vals.map Prod.snd)) r)) := by
    rw [hvm, List.map_map]
    rfl
  refine ⟨closestRowAux col (meanQ (vals.map Prod.snd)) rest r0
    (diffTo col (meanQ (vals.map Prod.snd)) r0), ?_, ?_⟩
  · rw [closestRowToMean, hv, hpe]
  · have hmem : closestRowAux col (meanQ (vals.map Prod.snd)) rest r0
        (diffTo col (meanQ (vals.map Prod.snd)) r0) ∈ df.drop (df.length / 2) := by
      rw [hpe]
      exact closestRowAux_mem col _ rest r0 _
    have hmemdf := List.mem_of_mem_drop hmem
    have hidx : idxmin (vals.map (fun lv =>
        (lv.1, |lv.2 - meanQ (vals.map Prod.snd)|))) =
        some (closestRowAux col (meanQ (vals.map Prod.snd)) rest r0
          (diffTo col (meanQ (vals.map Prod.snd)) r0)).label := by
      rw [hdiffs, hpe, List.map_cons, idxmin, idxminAux_eq_closestRowAux]
    have hlook : lookupRow (addDiffCol (df.drop (df.length / 2)) col
          (meanQ (vals.map Prod.snd)))
        (closestRowAux col (meanQ (vals.map Prod.snd)) rest r0
          (diffTo col (meanQ (vals.map Prod.snd)) r0)).label =
        some (Row.setCell (closestRowAux col (meanQ (vals.map Prod.snd)) rest r0
          (diffTo col (meanQ (vals.map Prod.snd)) r0)) ("diff")
          (diffTo col (meanQ (vals.map Prod.snd))
            (closestRowAux col (meanQ (vals.map Prod.snd)) rest r0
              (diffTo col (meanQ (vals.map Prod.snd)) r0)))) :=
      lookupRow_map
        (fun r => Row.setCell r ("diff") (diffTo col (meanQ (vals.map Prod.snd)) r))
        (fun r => rfl) _ _ hmem hndp
    have hdrop : (Row.setCell (closestRowAux col (meanQ (vals.map Prod.snd)) rest r0
          (diffTo col (meanQ (vals.map Prod.snd)) r0)) ("diff")
          (diffTo col (meanQ (vals.map Prod.snd))
            (closestRowAux col (meanQ (vals.map Prod.snd)) rest r0
              (diffTo col (meanQ (vals.map Prod.snd)) r0)))).dropCell ("diff") =
        closestRowAux col (meanQ (vals.map Prod.snd)) rest r0
          (diffTo col (meanQ (vals.map Prod.snd)) r0) :=
      dropCell_setCell_of_absent _ _ _ (hdiff _ hmemdf)
    unfold getFrameClosestToAverage
    simp only [hq, if_true, hv, hidx, hlook, hdrop]

/-- On a one-row pool the reference selector returns that row. -/
theorem closestRowToMean_singleton (r0 : Row) (col : String)
    (h : (colValues [r0] col).isSome) : closestRowToMean [r0] col = some r0 := by
  cases hl : List.lookup col r0.cells with
  | none => simp [colValues, hl] at h
  | some q => simp [closestRowToMean, colValues, hl, closestRowAux]

/-- Dispatch of `find_frame` for the three second-half methods. -/
theorem find_frame_eq_of_mem (df : List Row) (m q : String)
    (hm : (m, q) ∈ [("closest_to_mean_temperature_second_half", "temperature"),
      ("closest_to_mean_density_second_half", "density"),
      ("closest_to_mean_volume_second_half", "box_volume")]) :
    find_frame df m = getFrameClosestToAverage df q true := by
  simp only [List.mem_cons, List.not_mem_nil, or_false] at hm
  rcases hm with h | h | h <;>
    · have h1 : m = _ := congrArg Prod.fst h
      have h2 : q = _ := congrArg Prod.snd h
      subst h1
      subst h2
      simp [find_frame]

/-- C6: for the three second-half methods, the returned row is exactly
the one selected by `closestRowToMean` on the second half
`[len df / 2, len df)` of the series — both the mean and the candidate
pool are restricted to that contiguous, order-preserving suffix — and a
series of length 1 degenerates to the whole series: its single row is
returned. -/
theorem claim_C6_second_half_restriction (df : List Row) (m q col : String)
    (hm : (m, q) ∈ [("closest_to_mean_temperature_second_half", "temperature"),
      ("closest_to_mean_density_second_half", "density"),
      ("closest_to_mean_volume_second_half", "box_volume")])
    (hq : List.lookup q QUANTITIES2COLS = some col) (hne : df ≠ [])
    (hvals : (colValues (df.drop (df.length / 2)) col).isSome)
    (hnd : (df.map Row.label).Nodup)
    (hdiff : ∀ r ∈ df, List.lookup ("diff") r.cells = none) :
    (∃ rc, closestRowToMean (df.drop (df.length / 2)) col = some rc ∧
        find_frame df m = (df, Except.ok rc)) ∧
    ∀ r0, df = [r0] → find_frame df m = (df, Except.ok r0) := by
  have hff := find_frame_eq_of_mem df m q hm
  obtain ⟨rc, hc, hg⟩ := getFrame_second_half_result df q col hq hne hvals hnd hdiff
  constructor
  · exact ⟨rc, hc, by rw [hff]; exact hg⟩
  · intro r0 hdf
    subst hdf
    have hdrop1 : ([r0] : List Row).drop ([r0].length / 2) = [r0] := by simp
    rw [hdrop1] at hc hvals
    have hsing := closestRowToMean_singleton r0 col hvals
    have hrc : some rc = some r0 := hc.symm.trans hsing
    injection hrc with hrc2
    subst hrc2
    rw [hff]
    exact hg

/-- Witness for C6 on a concrete three-row series (second half: steps 1
and 2 with values 2 and 6). -/
theorem claim_C6_second_half_restriction_witness :
    (∃ rc, closestRowToMean
        (([tempRow 0 4, tempRow 1 2, tempRow 2 6]).drop
          (([tempRow 0 4, tempRow 1 2, tempRow 2 6]).length / 2))
        ("Temperature (K)") = some rc ∧
      find_frame [tempRow 0 4, tempRow 1 2, tempRow 2 6]
        ("closest_to_mean_temperature_second_half") =
        ([tempRow 0 4, tempRow 1 2, tempRow 2 6], Except.ok rc)) ∧
    ∀ r0, [tempRow 0 4, tempRow 1 2, tempRow 2 6] = [r0] →
      find_frame [tempRow 0 4, tempRow 1 2, tempRow 2 6]
        ("closest_to_mean_temperature_second_half") =
        ([tempRow 0 4, tempRow 1 2, tempRow 2 6], Except.ok r0) :=
  claim_C6_second_half_restriction [tempRow 0 4, tempRow 1 2, tempRow 2 6]
    ("closest_to_mean_temperature_second_half") ("temperature")
    ("Temperature (K)") (by simp) rfl (by simp) (by decide) (by decide) (by decide)

/-- The reference scan result has minimal difference among the running
best and all remaining candidates. -/
theorem closestRowAux_min (col : String) (m : ℚ) (rest : List Row) :
    ∀ (best : Row) (bd : ℚ), bd = diffTo col m best →
      diffTo col m (closestRowAux col m rest best bd) ≤ bd ∧
      ∀ r ∈ rest, diffTo col m (closestRowAux col m rest best bd) ≤ diffTo col m r := by
  induction rest with
  | nil =>
      intro best bd hbd
      constructor
      · rw [closestRowAux, hbd]
      · intro r hr
        simp at hr
  | cons r rs ih =>
      intro best bd hbd
      rw [closestRowAux]
      by_cases hd : diffTo col m r < bd
      · simp only [hd, if_true]
        obtain ⟨ih1, ih2⟩ := ih r (diffTo col m r) rfl
        refine ⟨le_trans ih1 (le_of_lt hd), ?_⟩
        intro x hx
        rcases List.mem_cons.mp hx with hxe | hxr
        · rw [hxe]
          exact ih1
        · exact ih2 x hxr
      · simp only [hd, if_false]
        obtain ⟨ih1, ih2⟩ := ih best bd hbd
        refine ⟨ih1, ?_⟩
        intro x hx
        rcases List.mem_cons.mp hx with hxe | hxr
        · rw [hxe]
          exact le_trans ih1 (not_lt.mp hd)
        · exact ih2 x hxr

/-- The reference scan either keeps the running best or strictly
improves on its difference (so equal-difference candidates never replace
an earlier best). -/
theorem closestRowAux_stay (col : String) (m : ℚ) (rest : List Row) :
    ∀ (best : Row) (bd : ℚ),
      closestRowAux col m rest best bd = best ∨
      diffTo col m (closestRowAux col m rest best bd) < bd := by
  induction rest with
  | nil =>
      intro best bd
      exact Or.inl (by rw [closestRowAux])
  | cons r rs ih =>
      intro best bd
      rw [closestRowAux]
      by_cases hd : diffTo col m r < bd
      · simp only [hd, if_true]
        rcases ih r (diffTo col m r) with h | h
        · exact Or.inr (by rw [h]; exact hd)
        · exact Or.inr (lt_trans h hd)
      · simp only [hd, if_false]
        exact ih best bd

/-- With strictly increasing labels, the reference scan returns the
lowest-labelled row among those achieving its minimal difference. -/
theorem closestRowAux_first (col : String) (m : ℚ) (rest : List Row) :
    ∀ (best : Row) (bd : ℚ), bd = diffTo col m best →
      List.Pairwise (fun a b : Row => a.label < b.label) (best :: rest) →
      ∀ x ∈ best :: rest,
        diffTo col m x = diffTo col m (closestRowAux col m rest best bd) →
        (closestRowAux col m rest best bd).label ≤ x.label := by
  induction rest with
  | nil =>
      intro best bd _ _ x hx _
      rcases List.mem_cons.mp hx with hxe | hxr
      · rw [hxe, closestRowAux]
      · simp at hxr
  | cons r rs ih =>
      intro best bd hbd hp x hx hdx
      rw [closestRowAux] at hdx ⊢
      have hp1 : List.Pairwise (fun a b : Row => a.label < b.label) (r :: rs) :=
        (List.pairwise_cons.mp hp).2
      have hpbl := (List.pairwise_cons.mp hp).1
      have hpbs : List.Pairwise (fun a b : Row => a.label < b.label) (best :: rs) := by
        rw [List.pairwise_cons]
        exact ⟨fun y hy => hpbl y (List.mem_cons.mpr (Or.inr hy)),
          (List.pairwise_cons.mp hp1).2⟩
      by_cases hd : diffTo col m r < bd
      · simp only [hd, if_true] at hdx ⊢
        rcases List.mem_cons.mp hx with hxe | hxr
        · exfalso
          obtain ⟨ih1, _⟩ := closestRowAux_min col m rs r (diffTo col m r) rfl
          have hlt : diffTo col m best < diffTo col m best := by
            calc diffTo col m best
                = diffTo col m (closestRowAux col m rs r (diffTo col m r)) := by
                  rw [← hdx, hxe]
              _ ≤ diffTo col m r := ih1
              _ < bd := hd
              _ = diffTo col m best := hbd
          exact lt_irrefl _ hlt
        · exact ih r (diffTo col m r) rfl hp1 x hxr hdx
      · simp only [hd, if_false] at hdx ⊢
        rcases List.mem_cons.mp hx with hxe | hxr
        · exact ih best bd hbd hpbs x (hxe ▸ List.mem_cons_self best rs) hdx
        · rcases List.mem_cons.mp hxr with hxr2 | hxr3
          · obtain ⟨ih1, _⟩ := closestRowAux_min col m rs best bd hbd
            have hble : bd ≤ diffTo col m r := not_lt.mp hd
            have heq1 : diffTo col m (closestRowAux col m rs best bd) = bd := by
              apply le_antisymm ih1
              calc bd ≤ diffTo col m r := hble
                _ = diffTo col m (closestRowAux col m rs best bd) := by
                  rw [← hdx, hxr2]
            rcases closestRowAux_stay col m rs best bd with hst | hst
            · rw [hst, hxr2]
              exact le_of_lt (hpbl r (List.mem_cons_self r rs))
            · rw [heq1] at hst
              exact absurd hst (lt_irrefl bd)
          · exact ih best bd hbd hpbs x (List.mem_cons.mpr (Or.inr hxr3)) hdx

/-- The arithmetic mean of the `col` values of a pool of rows. -/
def poolMean (pool : List Row) (col : String) : ℚ :=
  meanQ (pool.map (fun r => (List.lookup col r.cells).getD 0))

/-- C7 (amended): whenever `find_frame` returns a row — the second-half
methods; the whole-series methods fail before returning any row, see the
counterexample — the returned row has minimal absolute difference from
the pool mean, and among all rows of the search pool tied at that
difference it carries the lowest step label (rows are listed in
ascending-step order). -/
theorem claim_C7_tie_break (df : List Row) (m q col : String)
    (hm : (m, q) ∈ [("closest_to_mean_temperature_second_half", "temperature"),
      ("closest_to_mean_density_second_half", "density"),
      ("closest_to_mean_volume_second_half", "box_volume")])
    (hq : List.lookup q QUANTITIES2COLS = some col) (hne : df ≠ [])
    (hvals : (colValues (df.drop (df.length / 2)) col).isSome)
    (hnd : (df.map Row.label).Nodup)
    (hdiff : ∀ r ∈ df, List.lookup ("diff") r.cells = none)
    (hsort : List.Pairwise (fun a b : Row => a.label < b.label) df)
    (htie : ∃ r1 r2, r1 ∈ df.drop (df.length / 2) ∧ r2 ∈ df.drop (df.length / 2) ∧
      r1 ≠ r2 ∧
      diffTo col (poolMean (df.drop (df.length / 2)) col) r1 =
        diffTo col (poolMean (df.drop (df.length / 2)) col) r2) :
    ∃ rc, find_frame df m = (df, Except.ok rc) ∧ rc ∈ df.drop (df.length / 2) ∧
      (∀ x ∈ df.drop (df.length / 2),
        diffTo col (poolMean (df.drop (df.length / 2)) col) rc ≤
          diffTo col (poolMean (df.drop (df.length / 2)) col) x) ∧
      (∀ x ∈ df.drop (df.length / 2),
        diffTo col (poolMean (df.drop (df.length / 2)) col) x =
          diffTo col (poolMean (df.drop (df.length / 2)) col) rc →
        rc.label ≤ x.label) := by
  have hff := find_frame_eq_of_mem df m q hm
  obtain ⟨vals, hv⟩ := Option.isSome_iff_exists.mp hvals
  have hplne : df.drop (df.length / 2) ≠ [] := drop_half_ne_nil df hne
  obtain ⟨r0, rest, hpe⟩ : ∃ r0 rest, df.drop (df.length / 2) = r0 :: rest := by
    cases hx : df.drop (df.length / 2) with
    | nil => exact absurd hx hplne
    | cons a b => exact ⟨a, b, rfl⟩
  have hvm := colValues_eq_map _ col vals hv
  have hmean : meanQ (vals.map Prod.snd) = poolMean (df.drop (df.length / 2)) col := by
    rw [hvm, List.map_map, poolMean]
    rfl
  obtain ⟨rc, hc, hg⟩ := getFrame_second_half_result df q col hq hne hvals hnd hdiff
  have hcrw : closestRowToMean (df.drop (df.length / 2)) col =
      some (closestRowAux col (meanQ (vals.map Prod.snd)) rest r0
        (diffTo col (meanQ (vals.map Prod.snd)) r0)) := by
    rw [closestRowToMean, hv, hpe]
  have hrc : rc = closestRowAux col (meanQ (vals.map Prod.snd)) rest r0
      (diffTo col (meanQ (vals.map Prod.snd)) r0) := by
    have := hc.symm.trans hcrw
    injection this
  have hsortp : List.Pairwise (fun a b : Row => a.label < b.label)
      (df.drop (df.length / 2)) := hsort.sublist (List.drop_sublist _ _)
  obtain ⟨hm1, hm2⟩ := closestRowAux_min col (meanQ (vals.map Prod.snd)) rest r0
    (diffTo col (meanQ (vals.map Prod.snd)) r0) rfl
  refine ⟨rc, by rw [hff]; exact hg, by rw [hrc, hpe]; exact closestRowAux_mem _ _ _ _ _, ?_, ?_⟩
  · intro x hx
    rw [← hmean, hrc]
    rcases List.mem_cons.mp (hpe ▸ hx) with hxe | hxr
    · rw [hxe]
      exact hm1
    · exact hm2 x hxr
  · intro x hx hdx
    rw [← hmean, hrc] at hdx
    rw [hrc]
    exact closestRowAux_first col (meanQ (vals.map Prod.snd)) rest r0
      (diffTo col (meanQ (vals.map Prod.snd)) r0) rfl (hpe ▸ hsortp) x
      (hpe ▸ hx) hdx

/-- C7 counterexample: a four-row series whose search pool (steps 2 and
3, values 1 and 3) is tied in distance from the whole-series mean 2, on
a whole-series method: `find_frame` raises `KeyError` instead of
returning the lowest-step tied row. -/
theorem claim_C7_counterexample :
    |(1 : ℚ) - meanQ [0, 4, 1, 3]| = |(3 : ℚ) - meanQ [0, 4, 1, 3]| ∧
    (find_frame [tempRow 0 0, tempRow 1 4, tempRow 2 1, tempRow 3 3]
        ("closest_to_mean_temperature")).2 =
      Except.error (PdErr.keyError ("diff")) ∧
    ∀ r : Row, (find_frame [tempRow 0 0, tempRow 1 4, tempRow 2 1, tempRow 3 3]
        ("closest_to_mean_temperature")).2 ≠ Except.ok r := by
  refine ⟨?_, by decide, ?_⟩
  · norm_num [meanQ, List.sum_cons, List.sum_nil]
  · intro r h
    rw [show (find_frame [tempRow 0 0, tempRow 1 4, tempRow 2 1, tempRow 3 3]
        ("closest_to_mean_temperature")).2 =
      Except.error (PdErr.keyError ("diff")) from by decide] at h
    exact Except.noConfusion h

/-- Witness for C7 (amended) on a three-row series whose second half
(steps 1 and 2, values 1 and 3) is tied in distance from the pool mean 2. -/
theorem claim_C7_tie_break_witness :
    ∃ rc, find_frame [tempRow 0 0, tempRow 1 1, tempRow 2 3]
        ("closest_to_mean_temperature_second_half") =
        ([tempRow 0 0, tempRow 1 1, tempRow 2 3], Except.ok rc) ∧
      rc ∈ ([tempRow 0 0, tempRow 1 1, tempRow 2 3]).drop
        (([tempRow 0 0, tempRow 1 1, tempRow 2 3]).length / 2) ∧
      (∀ x ∈ ([tempRow 0 0, tempRow 1 1, tempRow 2 3]).drop
          (([tempRow 0 0, tempRow 1 1, tempRow 2 3]).length / 2),
        diffTo ("Temperature (K)")
          (poolMean (([tempRow 0 0, tempRow 1 1, tempRow 2 3]).drop
            (([tempRow 0 0, tempRow 1 1, tempRow 2 3]).length / 2))
            ("Temperature (K)")) rc ≤
        diffTo ("Temperature (K)")
          (poolMean (([tempRow 0 0, tempRow 1 1, tempRow 2 3]).drop
            (([tempRow 0 0, tempRow 1 1, tempRow 2 3]).length / 2))
            ("Temperature (K)")) x) ∧
      (∀ x ∈ ([tempRow 0 0, tempRow 1 1, tempRow 2 3]).drop
          (([tempRow 0 0, tempRow 1 1, tempRow 2 3]).length / 2),
        diffTo ("Temperature (K)")
          (poolMean (([tempRow 0 0, tempRow 1 1, tempRow 2 3]).drop
            (([tempRow 0 0, tempRow 1 1, tempRow 2 3]).length / 2))
            ("Temperature (K)")) x =
        diffTo ("Temperature (K)")
          (poolMean (([tempRow 0 0, tempRow 1 1, tempRow 2 3]).drop
            (([tempRow 0 0, tempRow 1 1, tempRow 2 3]).length / 2))
            ("Temperature (K)")) rc →
        rc.label ≤ x.label) :=
  claim_C7_tie_break [tempRow 0 0, tempRow 1 1, tempRow 2 3]
    ("closest_to_mean_temperature_second_half") ("temperature")
    ("Temperature (K)") (by simp) rfl (by simp) (by decide) (by decide)
    (by decide) (by decide)
    ⟨tempRow 1 1, tempRow 2 3, by decide, by decide, by decide, by
      have hdrop : ([tempRow 0 0, tempRow 1 1, tempRow 2 3] : List Row).drop
          (([tempRow 0 0, tempRow 1 1, tempRow 2 3] : List Row).length / 2) =
          [tempRow 1 1, tempRow 2 3] := by decide
      rw [hdrop]
      norm_num [diffTo, poolMean, meanQ, tempRow, List.lookup, List.sum_cons,
        List.sum_nil]⟩

/-- A Python object for the heap-level embedding of `recursive_merge`:
an (atomic, immutable) int or string, or a mutable dict whose values are
references (indices) to other heap objects. -/
inductive HObj where
  | int : Int → HObj
  | str : String → HObj
  | dict : List (String × Nat) → HObj
deriving DecidableEq

/-- The object heap: index `r` is the object with identity `r`. -/
abbrev Heap := List HObj

/-- Dereference. -/
def hget (h : Heap) (r : Nat) : Option HObj := h[r]?

/-- In-place update of the object with identity `r`. -/
def hset (h : Heap) (r : Nat) (o : HObj) : Heap := h.set r o

/-- Allocation of a fresh object: a new identity at the end of the heap. -/
def halloc (h : Heap) (o : HObj) : Heap × Nat := (h ++ [o], h.length)

/-- `d[k] = r` on a heap dict object: store reference `r` under key `k`
in the object with identity `m` (no-op on non-dict identities, which the
merge never produces). -/
def dictSet (h : Heap) (m : Nat) (k : String) (r : Nat) : Heap :=
  match hget h m with
  | some (HObj.dict es) => hset h m (HObj.dict (setEntry es k r))
  | _ => h

mutual

/-- `copy.deepcopy` over the object heap: dict objects are copied
recursively into fresh objects, ints and strings are atomic (`deepcopy`
returns the object itself).  `fuel` bounds the recursion depth; every
statement below either holds for all fuels or instantiates it above the
depth of the concrete structure involved. -/
def deepcopyF : Nat → Heap → Nat → Heap × Nat
  | 0, h, r => (h, r)
  | fuel+1, h, r =>
      match hget h r with
      | some (HObj.dict es) =>
          let p := copyEntriesF fuel h es
          halloc p.1 (HObj.dict p.2)
      | _ => (h, r)
termination_by fuel _ _ => (fuel, 0)

/-- Deep copy of the value references of a dict, left to right. -/
def copyEntriesF : Nat → Heap → List (String × Nat) → Heap × List (String × Nat)
  | _, h, [] => (h, [])
  | fuel, h, (k, r) :: rest =>
      let p1 := deepcopyF fuel h r
      let p2 := copyEntriesF fuel p1.1 rest
      (p2.1, (k, p1.2) :: p2.2)
termination_by fuel _ es => (fuel, es.length + 1)

end

mutual

/-- `recursive_merge` over the object heap: `merged = copy.deepcopy(d2)`
allocates a fresh copy of the secondary tree, then the items of the
primary dict are folded into the merged object.  Crucially, the branch
`merged[key] = value` stores the primary reference itself — no copy —
which is the source of result-to-primary sharing.  Non-dict operands
return the second reference unchanged (unreachable: Python raises on
them). -/
def mergeH : Nat → Heap → Nat → Nat → Heap × Nat
  | 0, h, _, r2 => (h, r2)
  | fuel+1, h, r1, r2 =>
      match hget h r1, hget h r2 with
      | some (HObj.dict e1), some (HObj.dict e2) =>
          let p := deepcopyF (fuel+1) h r2
          (mergeEntriesH fuel p.1 e1 e2 p.2, p.2)
      | _, _ => (h, r2)
termination_by fuel _ _ _ => (fuel, 0)

/-- The `for key, value in d1.items()` loop of `recursive_merge`,
writing into the merged dict object with identity `m`: a shared key with
dict values on both sides merges recursively, every other key stores the
primary value reference. -/
def mergeEntriesH : Nat → Heap → List (String × Nat) → List (String × Nat) →
    Nat → Heap
  | _, h, [], _, _ => h
  | fuel, h, (k, vr) :: rest, e2, m =>
      let h2 :=
        match List.lookup k e2 with
        | some wr =>
            (match hget h vr, hget h wr with
             | some (HObj.dict _), some (HObj.dict _) =>
                 let p := mergeH fuel h vr wr
                 dictSet p.1 m k p.2
             | _, _ => dictSet h m k vr)
        | none => dictSet h m k vr
      mergeEntriesH fuel h2 rest e2 m
termination_by fuel _ e1 _ _ => (fuel, e1.length + 1)

end

mutual

/-- Read the value tree rooted at identity `r` back from the heap
(dangling references and exhausted fuel read as the integer 0; both are
unreachable in the statements below). -/
def hReadVal : Nat → Heap → Nat → Val
  | 0, _, _ => Val.int 0
  | fuel+1, h, r =>
      match hget h r with
      | some (HObj.int n) => Val.int n
      | some (HObj.str s) => Val.str s
      | some (HObj.dict es) => Val.dict (readEntriesF fuel h es)
      | none => Val.int 0
termination_by fuel _ _ => (fuel, 0)

/-- Read the values of a dict object back from the heap. -/
def readEntriesF : Nat → Heap → List (String × Nat) → List (String × Val)
  | _, _, [] => []
  | fuel, h, (k, r) :: rest => (k, hReadVal fuel h r) :: readEntriesF fuel h rest
termination_by fuel _ es => (fuel, es.length + 1)

end

/-- Heap `h2` agrees with `h` on all identities below `n`.  All heap
operations of the merge write only to identities allocated during the
call, so the input heaps are preserved below their original length. -/
def presBelow (n : Nat) (h h2 : Heap) : Prop :=
  ∀ i, i < n → hget h2 i = hget h i

theorem presBelow_refl (n : Nat) (h : Heap) : presBelow n h h :=
  fun _ _ => rfl

theorem presBelow_trans {n n2 : Nat} {h h2 h3 : Heap} (hle : n ≤ n2)
    (p1 : presBelow n h h2) (p2 : presBelow n2 h2 h3) : presBelow n h h3 :=
  fun i hi => (p2 i (lt_of_lt_of_le hi hle)).trans (p1 i hi)

theorem presBelow_alloc (h : Heap) (o : HObj) (n : Nat) (hn : n ≤ h.length) :
    presBelow n h (h ++ [o]) := by
  intro i hi
  unfold hget
  exact List.getElem?_append_left (lt_of_lt_of_le hi hn)

theorem presBelow_set (h : Heap) (r : Nat) (o : HObj) (n : Nat) (hn : n ≤ r) :
    presBelow n h (hset h r o) := by
  intro i hi
  unfold hget hset
  exact List.getElem?_set_ne (by omega)

theorem presBelow_dictSet (h : Heap) (m : Nat) (k : String) (r : Nat) (n : Nat)
    (hn : n ≤ m) : presBelow n h (dictSet h m k r) := by
  unfold dictSet
  split
  · exact presBelow_set h m _ n hn
  · exact presBelow_refl n h

theorem length_dictSet (h : Heap) (m : Nat) (k : String) (r : Nat) :
    (dictSet h m k r).length = h.length := by
  unfold dictSet
  split
  · unfold hset
    exact List.length_set h m _
  · rfl

/-- `copyEntriesF` only allocates: the original heap is an unchanged
prefix of the result. -/
theorem copyEntriesF_preserves_of (fuel : Nat)
    (hdc : ∀ (h : Heap) (r : Nat), h.length ≤ (deepcopyF fuel h r).1.length ∧
      presBelow h.length h (deepcopyF fuel h r).1) :
    ∀ (es : List (String × Nat)) (h : Heap),
      h.length ≤ (copyEntriesF fuel h es).1.length ∧
      presBelow h.length h (copyEntriesF fuel h es).1 := by
  intro es
  induction es with
  | nil =>
      intro h
      simp only [copyEntriesF]
      exact ⟨le_refl _, presBelow_refl _ _⟩
  | cons p rest ih =>
      intro h
      obtain ⟨k, r⟩ := p
      simp only [copyEntriesF]
      obtain ⟨l1, pr1⟩ := hdc h r
      obtain ⟨l2, pr2⟩ := ih (deepcopyF fuel h r).1
      exact ⟨le_trans l1 l2, presBelow_trans l1 pr1 pr2⟩

/-- `deepcopyF` only allocates: the original heap is an unchanged prefix
of the result. -/
theorem deepcopyF_preserves : ∀ (fuel : Nat) (h : Heap) (r : Nat),
    h.length ≤ (deepcopyF fuel h r).1.length ∧
    presBelow h.length h (deepcopyF fuel h r).1 := by
  intro fuel
  induction fuel with
  | zero =>
      intro h r
      simp only [deepcopyF]
      exact ⟨le_refl _, presBelow_refl _ _⟩
  | succ fuel ih =>
      intro h r
      have hce := copyEntriesF_preserves_of fuel ih
      simp only [deepcopyF]
      split
  
      · rename_i es heq
        obtain ⟨l1, pr1⟩ := hce es h
        unfold halloc
        constructor
        · simp only [List.length_append, List.length_cons, List.length_nil]
          omega
        · exact presBelow_trans (le_refl _) pr1
            (presBelow_alloc _ _ _ l1)
      · exact ⟨le_refl _, presBelow_refl _ _⟩

/-- The merge loop writes only to the merged object `m` and to fresh
identities, so every identity below `n ≤ m` within the original heap is
preserved, and the heap never shrinks. -/
theorem mergeEntriesH_preserves_of (fuel : Nat)
    (hm : ∀ (h : Heap) (r1 r2 : Nat), h.length ≤ (mergeH fuel h r1 r2).1.length ∧
      presBelow h.length h (mergeH fuel h r1 r2).1) :
    ∀ (e1 : List (String × Nat)) (h : Heap) (e2 : List (String × Nat)) (m n : Nat),
      n ≤ m → n ≤ h.length →
      h.length ≤ (mergeEntriesH fuel h e1 e2 m).length ∧
      presBelow n h (mergeEntriesH fuel h e1 e2 m) := by
  intro e1
  induction e1 with
  | nil =>
      intro h e2 m n _ _
      simp only [mergeEntriesH]
      exact ⟨le_refl _, presBelow_refl _ _⟩
  | cons p rest ih =>
      intro h e2 m n hnm hnh
      obtain ⟨k, vr⟩ := p
      simp only [mergeEntriesH]
      have hstep : ∀ h2 : Heap, h.length ≤ h2.length → presBelow n h h2 →
          h.length ≤ (mergeEntriesH fuel h2 rest e2 m).length ∧
          presBelow n h (mergeEntriesH fuel h2 rest e2 m) := by
        intro h2 hlen hpres
        obtain ⟨l2, p2⟩ := ih h2 e2 m n hnm (le_trans hnh hlen)
        exact ⟨le_trans hlen l2, presBelow_trans (le_refl n) hpres p2⟩
      split
      · split
        · rename_i xo wr hlk xo1 xo2 ed1 ed2 hgv hgw
          apply hstep
          · rw [length_dictSet]
            exact (hm h vr wr).1
          · refine presBelow_trans (le_refl n)
              (fun i hi => (hm h vr wr).2 i (lt_of_lt_of_le hi hnh)) ?_
            exact presBelow_dictSet _ _ _ _ _ hnm
        · apply hstep
          · rw [length_dictSet]
          · exact presBelow_dictSet _ _ _ _ _ hnm
      · apply hstep
        · rw [length_dictSet]
        · exact presBelow_dictSet _ _ _ _ _ hnm

/-- `mergeH` preserves every object of the input heap: all writes go to
the freshly allocated merged objects. -/
theorem mergeH_preserves : ∀ (fuel : Nat) (h : Heap) (r1 r2 : Nat),
    h.length ≤ (mergeH fuel h r1 r2).1.length ∧
    presBelow h.length h (mergeH fuel h r1 r2).1 := by
  intro fuel
  induction fuel with
  | zero =>
      intro h r1 r2
      simp only [mergeH]
      exact ⟨le_refl _, presBelow_refl _ _⟩
  | succ fuel ih =>
      intro h r1 r2
      simp only [mergeH]
      split
      · rename_i e1 e2 hg1 hg2
        have hdc : deepcopyF (fuel + 1) h r2 =
            halloc (copyEntriesF fuel h e2).1
              (HObj.dict (copyEntriesF fuel h e2).2) := by
          simp only [deepcopyF, hg2]
        obtain ⟨lce, pce⟩ :=
          copyEntriesF_preserves_of fuel (deepcopyF_preserves fuel) e2 h
        obtain ⟨lme, pme⟩ := mergeEntriesH_preserves_of fuel ih e1
          ((copyEntriesF fuel h e2).1 ++ [HObj.dict (copyEntriesF fuel h e2).2])
          e2 ((copyEntriesF fuel h e2).1.length) h.length lce
          (by simp only [List.length_append, List.length_cons, List.length_nil]; omega)
        rw [hdc]
        unfold halloc
        constructor
        · refine le_trans ?_ lme
          simp only [List.length_append, List.length_cons, List.length_nil]
          omega
        · have pa : presBelow h.length h
              ((copyEntriesF fuel h e2).1 ++
                [HObj.dict (copyEntriesF fuel h e2).2]) :=
            presBelow_trans (le_refl _) pce (presBelow_alloc _ _ _ lce)
          exact presBelow_trans (le_refl _) pa pme
      · exact ⟨le_refl _, presBelow_refl _ _⟩

/-- Well-formed heap: every reference stored in a dict object points
below the heap length. -/
def heapWF (h : Heap) : Prop :=
  ∀ r es, hget h r = some (HObj.dict es) → ∀ p ∈ es, p.2 < h.length

/-- Well-formedness of a single heap object with respect to a heap
length (decidable, for concrete witnesses). -/
def objWF (n : Nat) : HObj → Prop
  | HObj.dict es => ∀ p ∈ es, p.2 < n
  | _ => True

instance (n : Nat) (o : HObj) : Decidable (objWF n o) :=
  match o with
  | HObj.int _ => Decidable.isTrue trivial
  | HObj.str _ => Decidable.isTrue trivial
  | HObj.dict es => inferInstanceAs (Decidable (∀ p ∈ es, p.2 < n))

/-- `heapWF` from a check over the heap objects themselves. -/
theorem heapWF_of_forall_mem (h : Heap) (hb : ∀ o ∈ h, objWF h.length o) :
    heapWF h := by
  intro r es hg p hp
  have hmem : HObj.dict es ∈ h := by
    unfold hget at hg
    exact List.getElem?_mem hg
  exact hb _ hmem p hp

/-- Reading back a tree rooted below the preserved prefix sees no
difference between the original heap and any extension of it. -/
theorem hReadVal_congr : ∀ (g : Nat) (h h2 : Heap), presBelow h.length h h2 →
    heapWF h →
    (∀ r, r < h.length → hReadVal g h2 r = hReadVal g h r) ∧
    (∀ es, (∀ p ∈ es, p.2 < h.length) →
      readEntriesF g h2 es = readEntriesF g h es) := by
  intro g
  induction g with
  | zero =>
      intro h h2 _ _
      have hre : ∀ es : List (String × Nat),
          readEntriesF 0 h2 es = readEntriesF 0 h es := by
        intro es
        induction es with
        | nil => simp [readEntriesF]
        | cons p rest ih =>
            obtain ⟨k, r⟩ := p
            simp [readEntriesF, hReadVal, ih]
      exact ⟨fun r _ => by simp [hReadVal], fun es _ => hre es⟩
  | succ g ihg =>
      intro h h2 hpres hwf
      have hrd : ∀ r, r < h.length → hReadVal (g + 1) h2 r = hReadVal (g + 1) h r := by
        intro r hr
        have hg2 : hget h2 r = hget h r := hpres r hr
        simp only [hReadVal, hg2]
        cases hg : hget h r with
        | none => rfl
        | some o =>
            cases o with
            | int n => rfl
            | str s => rfl
            | dict es =>
                have := (ihg h h2 hpres hwf).2 es (hwf r es hg)
                show Val.dict (readEntriesF g h2 es) = Val.dict (readEntriesF g h es)
                rw [this]
      refine ⟨hrd, ?_⟩
      intro es
      induction es with
      | nil =>
          intro _
          simp [readEntriesF]
      | cons p rest ih =>
          intro hes
          obtain ⟨k, r⟩ := p
          simp only [readEntriesF]
          rw [hrd r (hes (k, r) (List.mem_cons_self _ _)),
            ih (fun p hp => hes p (List.mem_cons.mpr (Or.inr hp)))]

/-- C8 (amended): `recursive_merge` mutates neither input — on every
well-formed heap, both argument trees read back unchanged after the call
(the merge writes only to freshly allocated objects).  The ownership
half of the original claim fails: the result may share objects with the
primary input, see the counterexample. -/
theorem claim_C8_merge_no_input_mutation (fuel g : Nat) (h : Heap) (r1 r2 : Nat)
    (hwf : heapWF h) (h1 : r1 < h.length) (h2 : r2 < h.length) :
    hReadVal g (mergeH fuel h r1 r2).1 r1 = hReadVal g h r1 ∧
    hReadVal g (mergeH fuel h r1 r2).1 r2 = hReadVal g h r2 := by
  obtain ⟨_, hpres⟩ := mergeH_preserves fuel h r1 r2
  have hc := hReadVal_congr g h (mergeH fuel h r1 r2).1 hpres hwf
  exact ⟨hc.1 r1 h1, hc.1 r2 h2⟩

/-- Concrete heap for the C8 counterexample: identity 0 is the int 1,
identity 1 the dict `x ↦ 0`, identity 2 the primary `a ↦ 1` (so primary
reads back as the nested mapping a to x to 1), identity 3 the empty
secondary. -/
def h0 : Heap :=
  [HObj.int 1, HObj.dict [("x", 0)], HObj.dict [("a", 1)], HObj.dict []]

/-- C8 counterexample: merging the primary `a ↦ dict` with identity 2
into the empty secondary with identity 3 yields the fresh dict with
identity 4, whose `a` entry is the very object (identity 1) owned by the
primary; a single in-place store to that shared object therefore changes
the value read back from the primary input — the returned mapping shares
ownership with an input. -/
theorem claim_C8_counterexample :
    (mergeH 3 h0 2 3).2 = 4 ∧
    hget (mergeH 3 h0 2 3).1 4 = some (HObj.dict [("a", 1)]) ∧
    hget (mergeH 3 h0 2 3).1 2 = some (HObj.dict [("a", 1)]) ∧
    hReadVal 4 (hset (mergeH 3 h0 2 3).1 1 (HObj.int 99)) 2 ≠
      hReadVal 4 (mergeH 3 h0 2 3).1 2 := by
  have hm : mergeH 3 h0 2 3 =
      ([HObj.int 1, HObj.dict [("x", 0)], HObj.dict [("a", 1)], HObj.dict [],
        HObj.dict [("a", 1)]], 4) := by
    simp [mergeH, mergeEntriesH, deepcopyF, copyEntriesF, dictSet, hget, hset,
      halloc, h0, List.lookup, setEntry]
  rw [hm]
  refine ⟨rfl, rfl, rfl, ?_⟩
  intro hcontra
  simp [hReadVal, readEntriesF, hget, hset, List.set] at hcontra

/-- Witness for C8 (amended) on the concrete heap `h0`: neither the
primary (identity 2) nor the secondary (identity 3) reads back changed
after the merge. -/
theorem claim_C8_merge_no_input_mutation_witness :
    hReadVal 4 (mergeH 3 h0 2 3).1 2 = hReadVal 4 h0 2 ∧
    hReadVal 4 (mergeH 3 h0 2 3).1 3 = hReadVal 4 h0 3 :=
  claim_C8_merge_no_input_mutation 3 4 h0 2 3
    (heapWF_of_forall_mem h0 (by decide)) (by decide) (by decide)

end Openmmwrap
